import Mathlib

/-!
# Verification of the sturavoting vote-tallying engine

Shallow embedding of the evaluation engine in `votings.go`
(median votings and the Schulze method), together with proofs of the
specified properties.

Modelling conventions:
* Go `int` values are modelled as `ℤ`.
* Go `float64` values (`percentRequired` and the percentage results) are
  modelled as exact rationals `ℚ`; the Go conversion `int(x)` is
  truncation toward zero, modelled by `ratTrunc`.
* Go slices `[]int` are modelled as `List ℤ`; the quadratic `IntMatrix`
  is modelled as a total function `ℕ → ℕ → ℤ` whose entries outside the
  `n × n` block are `0` (the value `NewIntMatrix` initialises entries to).
* The in-place mutation performed by `SortMedianVotes` (Go `sort.Slice`
  sorts the caller's slice) is modelled by `EvaluateMedianSt`, which
  returns the final state of the vote slice alongside the result.
* Go's unstable `sort.Slice` with comparison `Value >` is modelled by
  insertion sort with respect to the total relation `medianGE`
  (non-ascending values); any output of the Go sort is sorted for
  `medianGE` and a permutation of the input, which is all the proofs use.
-/

/-- Truncation toward zero of a rational number: the result of Go's
`int(x)` conversion applied to a `float64`, here over exact rationals. -/
def ratTrunc (q : ℚ) : ℤ := if 0 ≤ q then ⌊q⌋ else -⌊-q⌋

/-! ## Median votings -/

/-- `MedianVote` from `votings.go`: the weight of the voter and the value
the voter chose. -/
structure MedianVote where
  weight : ℤ
  value : ℤ
  deriving DecidableEq, Repr

/-- The sort relation used by `SortMedianVotes`: votes with highest values
come first (the reflexive total closure of Go's `Value >` comparison). -/
def medianGE (a b : MedianVote) : Prop := b.value ≤ a.value

instance : DecidableRel medianGE :=
  fun a b => inferInstanceAs (Decidable (b.value ≤ a.value))

instance : IsTotal MedianVote medianGE := ⟨fun a b => le_total b.value a.value⟩

instance : IsTrans MedianVote medianGE := ⟨fun _ _ _ h1 h2 => le_trans h2 h1⟩

/-- `SortMedianVotes` sorts the votes so that votes with highest values
come first. -/
def SortMedianVotes (votes : List MedianVote) : List MedianVote :=
  List.insertionSort medianGE votes

/-- The sum of the weights of a list of votes (`weightSum` in the Go code). -/
def totalWeight (votes : List MedianVote) : ℤ :=
  (votes.map (fun v => v.weight)).sum

/-- `MedianResult` from `votings.go`. -/
structure MedianResult where
  value : ℤ
  votesRequired : ℤ
  deriving DecidableEq, Repr

/-- The accumulation loop of `EvaluateMedian`: `weightSoFar` starts at
`acc`; the first vote whose running weight strictly exceeds
`votesRequired` supplies the result value, `0` if none does. -/
def medianLoop : List MedianVote → ℤ → ℤ → ℤ
  | [], _, _ => 0
  | v :: rest, acc, vr =>
      if vr < acc + v.weight then v.value else medianLoop rest (acc + v.weight) vr

/-- `EvaluateMedian` from `votings.go`: sort the votes (highest value
first), compute `votesRequired = int(float64(weightSum) * percentRequired)`
and return the first value whose accumulated weight strictly exceeds it. -/
def EvaluateMedian (votes : List MedianVote) (percentRequired : ℚ) : MedianResult :=
  let sorted := SortMedianVotes votes
  let weightSum := totalWeight sorted
  let votesRequired := ratTrunc ((weightSum : ℚ) * percentRequired)
  { value := medianLoop sorted 0 votesRequired, votesRequired := votesRequired }

/-- `EvaluateMedian` together with the final state of the callers vote
slice: `SortMedianVotes` sorts the slice in place, so after the call the
caller observes the sorted permutation of the votes. -/
def EvaluateMedianSt (votes : List MedianVote) (percentRequired : ℚ) :
    MedianResult × List MedianVote :=
  (EvaluateMedian votes percentRequired, SortMedianVotes votes)

/-- Total weight of the votes whose value is at least `x`: the
accumulated weight the loop has reached once every vote with value `≥ x`
has been processed. -/
def sumWeightGE (votes : List MedianVote) (x : ℤ) : ℤ :=
  ((votes.filter (fun v => decide (x ≤ v.value))).map (fun v => v.weight)).sum

/-! ## Schulze votings: data model and operations -/

/-- `SchulzeVote` from `votings.go`: the weight of the voter and the
ranking over all `n` options; smaller ranking values are preferred. -/
structure SchulzeVote where
  weight : ℤ
  ranking : List ℤ
  deriving DecidableEq, Repr

/-- Quadratic integer matrices (`IntMatrix` in `votings.go`) as total
functions; entries outside the `n × n` block are the `0` that
`NewIntMatrix` initialises every entry to. -/
abbrev Mat := ℕ → ℕ → ℤ

/-- The all-zero matrix returned by `NewIntMatrix`. -/
def zeroM : Mat := fun _ _ => 0

/-- Write a single matrix cell: `m[a][b] = v`. -/
def setM (m : Mat) (a b : ℕ) (v : ℤ) : Mat :=
  fun x y => if x = a ∧ y = b then v else m x y

/-- The ranking entry `ranking[i]` of a vote; the code only reads
positions `< n` after validating that the ranking has length `n`. -/
def rnk (v : SchulzeVote) (i : ℕ) : ℤ := v.ranking.getD i 0

/-- The body of the inner pair loop of `computeD` for the pair `(i, j)`:
add the vote weight to `d[i][j]` or to `d[j][i]` according to the
comparison of the two ranking entries; equal entries add nothing. -/
def pairStep (v : SchulzeVote) (i : ℕ) (m : Mat) (j : ℕ) : Mat :=
  if rnk v i < rnk v j then setM m i j (m i j + v.weight)
  else if rnk v j < rnk v i then setM m j i (m j i + v.weight)
  else m

/-- The double pair loop of `computeD` for one vote:
`for i := 0; i < n; i++ { for j := i+1; j < n; j++ { … } }`. -/
def voteD (n : ℕ) (m : Mat) (v : SchulzeVote) : Mat :=
  (List.range n).foldl
    (fun m i => (List.range' (i + 1) (n - (i + 1))).foldl (pairStep v i) m) m

/-- `computeD` from `votings.go`. -/
def computeD (votes : List SchulzeVote) (n : ℕ) : Mat :=
  votes.foldl (voteD n) zeroM

/-- The sum of the weights of a list of Schulze votes (`weightSum`). -/
def totalWeightS (votes : List SchulzeVote) : ℤ :=
  (votes.map (fun v => v.weight)).sum

/-- `computePercentage` from `votings.go`: `nil` for `n = 0`, all-zero
entries when `weightSum == 0`, otherwise `d[i][n-1] / weightSum` for
`i < n-1` (float64 division modelled by exact division in `ℚ`). -/
def computePercentage (d : Mat) (n : ℕ) (weightSum : ℤ) : List ℚ :=
  if n = 0 then []
  else if weightSum = 0 then List.replicate (n - 1) 0
  else (List.range (n - 1)).map (fun i => (d i (n - 1) : ℚ) / (weightSum : ℚ))

/-- The seed phase of `computeP`: `p[i][j] = d[i][j]` iff the direct edge
`i → j` exists (`d[i][j] > d[j][i]`), `0` otherwise. The row goroutines
write disjoint rows of the zero-initialised result, so the phase is this
pure function whatever the scheduling. -/
def seedP (d : Mat) (n : ℕ) : Mat := fun i j =>
  if i < n ∧ j < n ∧ i ≠ j ∧ d j i < d i j then d i j else 0

/-- The innermost `k` loop of the widening phase of `computeP`, for a
fixed intermediate `i` and row `j`, performed in place cell by cell. -/
def fwRow (n i j : ℕ) (m : Mat) : Mat :=
  (List.range n).foldl
    (fun R k => if i = k ∨ j = k then R
      else setM R j k (max (R j k) (min (R j i) (R i k)))) m

/-- The `j` loop of the widening phase of `computeP` for a fixed
intermediate vertex `i`. -/
def fwUpdate (n : ℕ) (m : Mat) (i : ℕ) : Mat :=
  (List.range n).foldl (fun Q j => if i = j then Q else fwRow n i j Q) m

/-- `computeP` from `votings.go`: the seed phase followed by the strictly
sequential widening loop over the intermediate vertices `i = 0, …, n-1`. -/
def computeP (d : Mat) (n : ℕ) : Mat :=
  (List.range n).foldl (fwUpdate n) (seedP d n)

/-- The widening step for intermediate `i` as one simultaneous update.
During iteration `i` the in-place loop never writes row `i` or column `i`
(the guards skip `j = i` and `k = i`), so every cell it reads still holds
its value from the start of the iteration and the loop computes exactly
this function (`fwUpdate_eq_fwStep` below). -/
def fwStep (n : ℕ) (m : Mat) (i : ℕ) : Mat := fun j k =>
  if j < n ∧ k < n ∧ i ≠ j ∧ i ≠ k ∧ j ≠ k then max (m j k) (min (m j i) (m i k))
  else m j k

/-- The widening of `computeP` truncated after the first `m` intermediate
vertices, in the simultaneous formulation. -/
def fwIter (d : Mat) (n m : ℕ) : Mat :=
  (List.range m).foldl (fwStep n) (seedP d n)

/-- `walkOk d a vs b`: the vertex list `vs` is the interior of a directed
walk from `a` to `b` all of whose edges exist in the beats graph of `d`
(edge `x → y` iff `d[x][y] > d[y][x]`). -/
def walkOk (d : Mat) : ℕ → List ℕ → ℕ → Bool
  | a, [], b => decide (d b a < d a b)
  | a, v :: vs, b => decide (d v a < d a v) && walkOk d v vs b

/-- The strength of a walk: the minimum weight of its edges, the edge
`x → y` carrying weight `d[x][y]`. -/
def walkStrength (d : Mat) : ℕ → List ℕ → ℕ → ℤ
  | a, [], b => d a b
  | a, v :: vs, b => min (d a v) (walkStrength d v vs b)

/-- `numWins` in `rankP`: the number of options `j ≠ i` with
`p[i][j] > p[j][i]`. -/
def winCount (p : Mat) (n i : ℕ) : ℕ :=
  ((List.range n).filter (fun j => decide (j ≠ i ∧ p j i < p i j))).length

/-- The descending order used to sort the win-count keys
(`sort.Sort(sort.Reverse(sort.IntSlice(keys)))`). -/
def natGE (a b : ℕ) : Prop := b ≤ a

instance : DecidableRel natGE := fun a b => inferInstanceAs (Decidable (b ≤ a))

instance : IsTotal ℕ natGE := ⟨fun a b => le_total b a⟩

instance : IsTrans ℕ natGE := ⟨fun _ _ _ h1 h2 => le_trans h2 h1⟩

instance : IsAntisymm ℕ natGE := ⟨fun _ _ h1 h2 => le_antisymm h2 h1⟩

/-- `rankP` with the order in which the per-option goroutines append to
the `candidateWins` buckets made explicit: `order` is the completion
order of the option goroutines (a permutation of `0, …, n-1`). The keys
of the bucket map are the distinct win counts; they are sorted in
reverse before the buckets are emitted. -/
def rankPSched (p : Mat) (n : ℕ) (order : List ℕ) : List (List ℕ) :=
  let keys := (order.map (winCount p n)).dedup
  let sortedKeys := List.insertionSort natGE keys
  sortedKeys.map (fun c => order.filter (fun i => decide (winCount p n i = c)))

/-- `rankP` from `votings.go`, with the goroutines completing in index
order; any schedule produces the same groups in the same order
(`EvaluateSchulzeSched_spec`), only the order inside a group varies. -/
def rankP (p : Mat) (n : ℕ) : List (List ℕ) := rankPSched p n (List.range n)

/-- The validation error of `EvaluateSchulze`: the Go error message
`Expected ranking of length %d, got length %d` carries the expected
length `n` and the actual ranking length. -/
structure RankingLengthError where
  expected : ℕ
  got : ℕ
  deriving DecidableEq, Repr

/-- The first loop of `EvaluateSchulze`: sum the weights, failing at the
first vote whose ranking length differs from `n`. -/
def weightCheck (n : ℕ) : List SchulzeVote → Except RankingLengthError ℤ
  | [] => Except.ok 0
  | v :: rest =>
      if v.ranking.length ≠ n then Except.error ⟨n, v.ranking.length⟩
      else (weightCheck n rest).map (fun s => v.weight + s)

/-- `SchulzeRes` from `votings.go`. -/
structure SchulzeRes where
  votesRequired : ℤ
  D : Mat
  P : Mat
  ranked : List (List ℕ)
  percents : List ℚ

/-- `EvaluateSchulze` with the completion order of the `rankP` goroutines
made explicit; `computeP` and `computePercentage` both only read `d` and
write disjoint results, so their parallel execution needs no schedule
parameter. -/
def EvaluateSchulzeSched (order : List ℕ) (votes : List SchulzeVote) (n : ℕ)
    (percentRequired : ℚ) : Except RankingLengthError SchulzeRes :=
  match weightCheck n votes with
  | Except.error e => Except.error e
  | Except.ok weightSum =>
      let d := computeD votes n
      Except.ok
        { votesRequired := ratTrunc ((weightSum : ℚ) * percentRequired)
          D := d
          P := computeP d n
          ranked := rankPSched (computeP d n) n order
          percents := computePercentage d n weightSum }

/-- `EvaluateSchulze` from `votings.go`, with the goroutines of `rankP`
completing in index order. -/
def EvaluateSchulze (votes : List SchulzeVote) (n : ℕ) (percentRequired : ℚ) :
    Except RankingLengthError SchulzeRes :=
  EvaluateSchulzeSched (List.range n) votes n percentRequired

/-- `votesRequired` of a Schulze outcome, `0` on the error branch. -/
def vrOf : Except RankingLengthError SchulzeRes → ℤ
  | Except.ok r => r.votesRequired
  | Except.error _ => 0

/-- The matrix `D` of a Schulze outcome, zero on the error branch. -/
def dOf : Except RankingLengthError SchulzeRes → Mat
  | Except.ok r => r.D
  | Except.error _ => zeroM

/-- The matrix `P` of a Schulze outcome, zero on the error branch. -/
def pOf : Except RankingLengthError SchulzeRes → Mat
  | Except.ok r => r.P
  | Except.error _ => zeroM

/-- The ranked groups of a Schulze outcome, `[]` on the error branch. -/
def rankedOf : Except RankingLengthError SchulzeRes → List (List ℕ)
  | Except.ok r => r.ranked
  | Except.error _ => []

/-- The percentages of a Schulze outcome, `[]` on the error branch. -/
def percentsOf : Except RankingLengthError SchulzeRes → List ℚ
  | Except.ok r => r.percents
  | Except.error _ => []

/-! ## Proofs -/

lemma ratTrunc_zero : ratTrunc 0 = 0 := by
  rw [ratTrunc]
  norm_num

example :
    EvaluateMedian [⟨4, 200⟩, ⟨3, 1000⟩, ⟨2, 700⟩, ⟨2, 500⟩] (1/2) = ⟨500, 5⟩ := by
  have ht :
      totalWeight (SortMedianVotes [⟨4, 200⟩, ⟨3, 1000⟩, ⟨2, 700⟩, ⟨2, 500⟩]) = 11 := by
    decide
  unfold EvaluateMedian
  dsimp only
  rw [ht]
  have h : ratTrunc (((11 : ℤ) : ℚ) * (1/2)) = 5 := by
    rw [ratTrunc]
    norm_num
  rw [h]
  decide

example : EvaluateMedian [⟨1, 0⟩, ⟨2, 150⟩, ⟨3, 200⟩] (1/2) = ⟨150, 3⟩ := by
  have ht : totalWeight (SortMedianVotes [⟨1, 0⟩, ⟨2, 150⟩, ⟨3, 200⟩]) = 6 := by
    decide
  unfold EvaluateMedian
  dsimp only
  rw [ht]
  have h : ratTrunc (((6 : ℤ) : ℚ) * (1/2)) = 3 := by
    rw [ratTrunc]
    norm_num
  rw [h]
  decide

lemma sumWeightGE_cons (a : MedianVote) (l : List MedianVote) (x : ℤ) :
    sumWeightGE (a :: l) x = (if x ≤ a.value then a.weight else 0) + sumWeightGE l x := by
  by_cases h : x ≤ a.value <;> simp [sumWeightGE, List.filter_cons, h]

lemma sumWeightGE_nonneg (l : List MedianVote) (hw : ∀ v ∈ l, 0 ≤ v.weight) (x : ℤ) :
    0 ≤ sumWeightGE l x := by
  apply List.sum_nonneg
  intro y hy
  simp only [List.mem_map, List.mem_filter] at hy
  obtain ⟨v, ⟨hv, _⟩, rfl⟩ := hy
  exact hw v hv

lemma sumWeightGE_pos_mem (l : List MedianVote) (x : ℤ) (h : 0 < sumWeightGE l x) :
    ∃ v ∈ l, x ≤ v.value := by
  by_contra hc
  push_neg at hc
  have hnil : l.filter (fun v => decide (x ≤ v.value)) = [] := by
    apply List.filter_eq_nil_iff.2
    intro v hv
    simp only [decide_eq_true_eq]
    exact not_le.2 (hc v hv)
  rw [sumWeightGE, hnil] at h
  simp at h

lemma sumWeightGE_eq_zero_of_all_lt (l : List MedianVote) (x : ℤ)
    (h : ∀ v ∈ l, v.value < x) : sumWeightGE l x = 0 := by
  have hnil : l.filter (fun v => decide (x ≤ v.value)) = [] := by
    apply List.filter_eq_nil_iff.2
    intro v hv
    simp only [decide_eq_true_eq]
    exact not_le.2 (h v hv)
  rw [sumWeightGE, hnil]
  rfl

/-- Full characterisation of the accumulation loop on a list sorted with
highest values first and non-negative weights: either the result is the
greatest vote value whose weight-at-least sum pushes the accumulator
strictly past the threshold, or no vote value does and the result is `0`. -/
lemma medianLoop_spec :
    ∀ (s : List MedianVote), List.Pairwise medianGE s → (∀ v ∈ s, 0 ≤ v.weight) →
      ∀ (acc vr : ℤ),
        ((∃ v ∈ s, v.value = medianLoop s acc vr) ∧
            vr < acc + sumWeightGE s (medianLoop s acc vr) ∧
            ∀ x : ℤ, (∃ v ∈ s, v.value = x) →
              vr < acc + sumWeightGE s x → x ≤ medianLoop s acc vr) ∨
          (medianLoop s acc vr = 0 ∧
            ∀ x : ℤ, (∃ v ∈ s, v.value = x) → acc + sumWeightGE s x ≤ vr) := by
  intro s
  induction s with
  | nil =>
    intro _ _ acc vr
    right
    refine ⟨rfl, ?_⟩
    rintro x ⟨v, hv, _⟩
    cases hv
  | cons a rest ih =>
    intro hsort hw acc vr
    obtain ⟨ha, hsort'⟩ := List.pairwise_cons.1 hsort
    have hw' : ∀ v ∈ rest, 0 ≤ v.weight := fun v hv => hw v (List.mem_cons_of_mem a hv)
    by_cases hhit : vr < acc + a.weight
    · left
      have hcalc : medianLoop (a :: rest) acc vr = a.value := by
        simp only [medianLoop, if_pos hhit]
      refine ⟨⟨a, List.mem_cons_self a rest, hcalc.symm⟩, ?_, ?_⟩
      · rw [hcalc, sumWeightGE_cons, if_pos le_rfl]
        have h0 : 0 ≤ sumWeightGE rest a.value := sumWeightGE_nonneg rest hw' a.value
        omega
      · intro x hx _
        rw [hcalc]
        obtain ⟨v, hv, rfl⟩ := hx
        rcases List.mem_cons.1 hv with rfl | hvr
        · exact le_rfl
        · exact ha v hvr
    · have hcalc : medianLoop (a :: rest) acc vr = medianLoop rest (acc + a.weight) vr := by
        simp only [medianLoop, if_neg hhit]
      have hkey : ∀ x : ℤ, x ≤ a.value →
          acc + sumWeightGE (a :: rest) x = acc + a.weight + sumWeightGE rest x := by
        intro x hx
        rw [sumWeightGE_cons, if_pos hx]
        ring
      rcases ih hsort' hw' (acc + a.weight) vr with ⟨hmem, hth, hmax⟩ | ⟨h0, hall⟩
      · left
        obtain ⟨vL, hvL, hvLval⟩ := hmem
        have hLle : medianLoop rest (acc + a.weight) vr ≤ a.value := hvLval ▸ ha vL hvL
        rw [hcalc]
        refine ⟨⟨vL, List.mem_cons_of_mem a hvL, hvLval⟩, ?_, ?_⟩
        · rw [hkey _ hLle]
          exact hth
        · intro x hx hxth
          obtain ⟨v, hv, rfl⟩ := hx
          rcases List.mem_cons.1 hv with rfl | hvr
          · rw [hkey v.value le_rfl] at hxth
            have hpos : 0 < sumWeightGE rest v.value := by omega
            obtain ⟨u, hu, hux⟩ := sumWeightGE_pos_mem rest v.value hpos
            have huval : u.value = v.value := le_antisymm (ha u hu) hux
            exact hmax v.value ⟨u, hu, huval⟩ hxth
          · rw [hkey v.value (ha v hvr)] at hxth
            exact hmax v.value ⟨v, hvr, rfl⟩ hxth
      · right
        refine ⟨by rw [hcalc]; exact h0, ?_⟩
        intro x hx
        obtain ⟨v, hv, rfl⟩ := hx
        rcases List.mem_cons.1 hv with rfl | hvr
        · rw [hkey v.value le_rfl]
          by_cases hex : ∃ u ∈ rest, v.value ≤ u.value
          · obtain ⟨u, hu, hux⟩ := hex
            have huval : u.value = v.value := le_antisymm (ha u hu) hux
            exact hall v.value ⟨u, hu, huval⟩
          · push_neg at hex
            rw [sumWeightGE_eq_zero_of_all_lt rest v.value hex]
            omega
        · rw [hkey v.value (ha v hvr)]
          exact hall v.value ⟨v, hvr, rfl⟩

lemma sumWeightGE_perm {l₁ l₂ : List MedianVote} (h : l₁.Perm l₂) (x : ℤ) :
    sumWeightGE l₁ x = sumWeightGE l₂ x := by
  rw [sumWeightGE, sumWeightGE]
  exact List.Perm.sum_eq (List.Perm.map _ (List.Perm.filter _ h))

lemma totalWeight_perm {l₁ l₂ : List MedianVote} (h : l₁.Perm l₂) :
    totalWeight l₁ = totalWeight l₂ :=
  List.Perm.sum_eq (List.Perm.map _ h)

/-- C2: for votes with the non-negative weights of the data model,
`EvaluateMedian` returns `votesRequired` equal to the truncation toward
zero of `totalWeight * percentRequired`, and the returned value is the
first value, taking values in descending order with weights accumulated,
whose running cumulative weight strictly exceeds `votesRequired`
(equivalently: the greatest vote value whose weight-at-least sum strictly
exceeds the threshold, `0` if there is none); the empty vote list gives
`⟨0, 0⟩`, and the function is total. -/
theorem EvaluateMedian_spec (votes : List MedianVote) (p : ℚ)
    (hw : ∀ v ∈ votes, 0 ≤ v.weight) :
    (EvaluateMedian votes p).votesRequired = ratTrunc ((totalWeight votes : ℚ) * p) ∧
      (((∃ v ∈ votes, v.value = (EvaluateMedian votes p).value) ∧
          (EvaluateMedian votes p).votesRequired <
            sumWeightGE votes (EvaluateMedian votes p).value ∧
          ∀ x : ℤ, (∃ v ∈ votes, v.value = x) →
            (EvaluateMedian votes p).votesRequired < sumWeightGE votes x →
            x ≤ (EvaluateMedian votes p).value) ∨
        ((EvaluateMedian votes p).value = 0 ∧
          ∀ x : ℤ, (∃ v ∈ votes, v.value = x) →
            sumWeightGE votes x ≤ (EvaluateMedian votes p).votesRequired)) ∧
      (votes = [] → EvaluateMedian votes p = ⟨0, 0⟩) := by
  have hperm : (SortMedianVotes votes).Perm votes := List.perm_insertionSort medianGE votes
  have hsort : List.Pairwise medianGE (SortMedianVotes votes) :=
    List.sorted_insertionSort medianGE votes
  have hw' : ∀ v ∈ SortMedianVotes votes, 0 ≤ v.weight :=
    fun v hv => hw v (hperm.mem_iff.1 hv)
  have htot : totalWeight (SortMedianVotes votes) = totalWeight votes := totalWeight_perm hperm
  have hvr : (EvaluateMedian votes p).votesRequired =
      ratTrunc ((totalWeight (SortMedianVotes votes) : ℚ) * p) := rfl
  have hval : (EvaluateMedian votes p).value =
      medianLoop (SortMedianVotes votes) 0 (EvaluateMedian votes p).votesRequired := rfl
  refine ⟨by rw [hvr, htot], ?_, ?_⟩
  · rcases medianLoop_spec (SortMedianVotes votes) hsort hw' 0
        (EvaluateMedian votes p).votesRequired with ⟨hmem, hth, hmax⟩ | ⟨h0, hall⟩
    · left
      obtain ⟨v, hv, hveq⟩ := hmem
      refine ⟨⟨v, hperm.mem_iff.1 hv, by rw [hval]; exact hveq⟩, ?_, ?_⟩
      · rw [hval, ← sumWeightGE_perm hperm]
        omega
      · intro x hx hxth
        rw [hval]
        refine hmax x ?_ ?_
        · obtain ⟨u, hu, huv⟩ := hx
          exact ⟨u, hperm.mem_iff.2 hu, huv⟩
        · rw [sumWeightGE_perm hperm]
          omega
    · right
      refine ⟨by rw [hval]; exact h0, ?_⟩
      intro x hx
      obtain ⟨u, hu, huv⟩ := hx
      have := hall x ⟨u, hperm.mem_iff.2 hu, huv⟩
      rw [sumWeightGE_perm hperm] at this
      omega
  · intro hnil
    subst hnil
    have h0 : totalWeight (SortMedianVotes ([] : List MedianVote)) = 0 := rfl
    have : EvaluateMedian ([] : List MedianVote) p =
        ⟨medianLoop [] 0 (ratTrunc (((0 : ℤ) : ℚ) * p)), ratTrunc (((0 : ℤ) : ℚ) * p)⟩ := rfl
    rw [this]
    have hz : ratTrunc (((0 : ℤ) : ℚ) * p) = 0 := by
      rw [show (((0 : ℤ) : ℚ) * p) = 0 by push_cast; ring]
      exact ratTrunc_zero
    rw [hz]
    rfl

/-- Witness for C2 at scenario 1 from the specification. -/
theorem EvaluateMedian_spec_witness :
    (EvaluateMedian [⟨4, 200⟩, ⟨3, 1000⟩, ⟨2, 700⟩, ⟨2, 500⟩] (1/2)).votesRequired =
        ratTrunc ((totalWeight [⟨4, 200⟩, ⟨3, 1000⟩, ⟨2, 700⟩, ⟨2, 500⟩] : ℚ) * (1/2)) ∧
      (((∃ v ∈ [(⟨4, 200⟩ : MedianVote), ⟨3, 1000⟩, ⟨2, 700⟩, ⟨2, 500⟩],
            v.value = (EvaluateMedian [⟨4, 200⟩, ⟨3, 1000⟩, ⟨2, 700⟩, ⟨2, 500⟩] (1/2)).value) ∧
          (EvaluateMedian [⟨4, 200⟩, ⟨3, 1000⟩, ⟨2, 700⟩, ⟨2, 500⟩] (1/2)).votesRequired <
            sumWeightGE [⟨4, 200⟩, ⟨3, 1000⟩, ⟨2, 700⟩, ⟨2, 500⟩]
              (EvaluateMedian [⟨4, 200⟩, ⟨3, 1000⟩, ⟨2, 700⟩, ⟨2, 500⟩] (1/2)).value ∧
          ∀ x : ℤ, (∃ v ∈ [(⟨4, 200⟩ : MedianVote), ⟨3, 1000⟩, ⟨2, 700⟩, ⟨2, 500⟩], v.value = x) →
            (EvaluateMedian [⟨4, 200⟩, ⟨3, 1000⟩, ⟨2, 700⟩, ⟨2, 500⟩] (1/2)).votesRequired <
              sumWeightGE [⟨4, 200⟩, ⟨3, 1000⟩, ⟨2, 700⟩, ⟨2, 500⟩] x →
            x ≤ (EvaluateMedian [⟨4, 200⟩, ⟨3, 1000⟩, ⟨2, 700⟩, ⟨2, 500⟩] (1/2)).value) ∨
        ((EvaluateMedian [⟨4, 200⟩, ⟨3, 1000⟩, ⟨2, 700⟩, ⟨2, 500⟩] (1/2)).value = 0 ∧
          ∀ x : ℤ, (∃ v ∈ [(⟨4, 200⟩ : MedianVote), ⟨3, 1000⟩, ⟨2, 700⟩, ⟨2, 500⟩], v.value = x) →
            sumWeightGE [⟨4, 200⟩, ⟨3, 1000⟩, ⟨2, 700⟩, ⟨2, 500⟩] x ≤
              (EvaluateMedian [⟨4, 200⟩, ⟨3, 1000⟩, ⟨2, 700⟩, ⟨2, 500⟩] (1/2)).votesRequired)) ∧
      (([(⟨4, 200⟩ : MedianVote), ⟨3, 1000⟩, ⟨2, 700⟩, ⟨2, 500⟩] : List MedianVote) = [] →
        EvaluateMedian [⟨4, 200⟩, ⟨3, 1000⟩, ⟨2, 700⟩, ⟨2, 500⟩] (1/2) = ⟨0, 0⟩) :=
  EvaluateMedian_spec [⟨4, 200⟩, ⟨3, 1000⟩, ⟨2, 700⟩, ⟨2, 500⟩] (1/2) (by decide)

/-- C9 counterexample: the engine does modify its input. At the concrete
vote list `[⟨1, 1⟩, ⟨1, 2⟩]` the slice observed by the caller after
`EvaluateMedian` returns is not the list that was supplied: the in-place
sort has reordered it. -/
theorem EvaluateMedianSt_mutates :
    (EvaluateMedianSt [⟨1, 1⟩, ⟨1, 2⟩] (1/2)).2 ≠ [⟨1, 1⟩, ⟨1, 2⟩] := by
  decide

/-- C9 (amended): `EvaluateMedian` reorders its vote list in place: after
the call the list is a permutation of the supplied votes (so every vote
keeps its weight and value, and each appears exactly once) sorted with
highest values first; it is in general not the supplied order. The other
inputs (the Schulze votes, their rankings and the matrix `D`) are only
read, never written. -/
theorem EvaluateMedianSt_frame (votes : List MedianVote) (p : ℚ) :
    ((EvaluateMedianSt votes p).2).Perm votes ∧
      List.Pairwise medianGE (EvaluateMedianSt votes p).2 :=
  ⟨List.perm_insertionSort medianGE votes, List.sorted_insertionSort medianGE votes⟩

/-- C10: on a non-empty vote list in which every weight is zero the
total weight is zero, the threshold is zero, the accumulated weight never
strictly exceeds it, and the result is `⟨0, 0⟩`. -/
theorem EvaluateMedian_allZeroWeights (votes : List MedianVote) (p : ℚ)
    (hne : votes ≠ []) (hw : ∀ v ∈ votes, v.weight = 0)
    (hp0 : 0 < p) (hp1 : p < 1) :
    EvaluateMedian votes p = ⟨0, 0⟩ := by
  clear hne hp1
  have hperm : (SortMedianVotes votes).Perm votes := List.perm_insertionSort medianGE votes
  have hw' : ∀ v ∈ SortMedianVotes votes, v.weight = 0 :=
    fun v hv => hw v (hperm.mem_iff.1 hv)
  have htot : totalWeight (SortMedianVotes votes) = 0 := by
    apply List.sum_eq_zero
    intro x hx
    simp only [List.mem_map] at hx
    obtain ⟨v, hv, rfl⟩ := hx
    exact hw' v hv
  have hvr : ratTrunc ((totalWeight (SortMedianVotes votes) : ℚ) * p) = 0 := by
    rw [htot]
    rw [show (((0 : ℤ) : ℚ) * p) = 0 by push_cast; ring]
    exact ratTrunc_zero
  have hloop : ∀ (s : List MedianVote), (∀ v ∈ s, v.weight = 0) →
      ∀ acc : ℤ, ¬ (0 : ℤ) < acc → medianLoop s acc 0 = 0 := by
    intro s
    induction s with
    | nil => intro _ acc _; rfl
    | cons a rest ih =>
      intro hz acc hacc
      have ha0 : a.weight = 0 := hz a (List.mem_cons_self a rest)
      have : ¬ (0 : ℤ) < acc + a.weight := by omega
      simp only [medianLoop, if_neg this]
      exact ih (fun v hv => hz v (List.mem_cons_of_mem a hv)) (acc + a.weight) this
  have : EvaluateMedian votes p =
      ⟨medianLoop (SortMedianVotes votes) 0
          (ratTrunc ((totalWeight (SortMedianVotes votes) : ℚ) * p)),
        ratTrunc ((totalWeight (SortMedianVotes votes) : ℚ) * p)⟩ := rfl
  rw [this, hvr]
  have := hloop (SortMedianVotes votes) hw' 0 (by omega)
  rw [this]

/-- Witness for C10: a single vote of weight `0`. -/
theorem EvaluateMedian_allZeroWeights_witness :
    EvaluateMedian [⟨0, 5⟩] (1/2) = ⟨0, 0⟩ :=
  EvaluateMedian_allZeroWeights [⟨0, 5⟩] (1/2) (by decide) (by decide)
    (by norm_num) (by norm_num)

/-! ### Characterisation of computeD -/

lemma ite_and_mem_cons (w : ℤ) (Q : Prop) [Decidable Q] (x j0 : ℕ) (tl : List ℕ)
    (h : j0 ∉ tl) :
    (if Q ∧ x ∈ j0 :: tl then w else 0) =
      (if Q ∧ x = j0 then w else 0) + (if Q ∧ x ∈ tl then w else 0) := by
  by_cases hq : Q
  · by_cases hx : x = j0
    · subst hx
      simp [hq, h]
    · by_cases hxtl : x ∈ tl
      · simp [hq, hx, hxtl]
      · simp [hq, hx, hxtl]
  · simp [hq]

lemma setM_apply (m : Mat) (c d : ℕ) (w : ℤ) (x y : ℕ) :
    setM m c d w x y = if x = c ∧ y = d then w else m x y := rfl

lemma pairStep_apply (v : SchulzeVote) (i : ℕ) (m : Mat) (j0 a b : ℕ) :
    pairStep v i m j0 a b =
      if rnk v i < rnk v j0 then (if a = i ∧ b = j0 then m i j0 + v.weight else m a b)
      else if rnk v j0 < rnk v i then (if a = j0 ∧ b = i then m j0 i + v.weight else m a b)
      else m a b := by
  unfold pairStep
  split_ifs with h1 h2 h3 h4
  · rw [setM_apply, if_pos h2]
  · rw [setM_apply, if_neg h2]
  · rw [setM_apply, if_pos h4]
  · rw [setM_apply, if_neg h4]
  · rfl

lemma pairStep_get (v : SchulzeVote) (i j0 : ℕ) (hij : i ≠ j0) (m : Mat) (a b : ℕ) :
    pairStep v i m j0 a b =
      m a b + (if (a = i ∧ rnk v a < rnk v b) ∧ b = j0 then v.weight else 0)
            + (if (b = i ∧ rnk v a < rnk v b) ∧ a = j0 then v.weight else 0) := by
  rw [pairStep_apply]
  by_cases hc1 : a = i ∧ b = j0
  · obtain ⟨rfl, rfl⟩ := hc1
    split_ifs <;> omega
  · by_cases hc2 : a = j0 ∧ b = i
    · obtain ⟨rfl, rfl⟩ := hc2
      split_ifs <;> omega
    · split_ifs <;> omega

lemma pairStep_foldl (v : SchulzeVote) (i : ℕ) :
    ∀ (js : List ℕ), js.Nodup → i ∉ js → ∀ (m : Mat) (a b : ℕ),
      (js.foldl (pairStep v i) m) a b =
        m a b + (if (a = i ∧ rnk v a < rnk v b) ∧ b ∈ js then v.weight else 0)
              + (if (b = i ∧ rnk v a < rnk v b) ∧ a ∈ js then v.weight else 0) := by
  intro js
  induction js with
  | nil =>
    intro _ _ m a b
    simp
  | cons j0 tl ih =>
    intro hnd hi m a b
    obtain ⟨hj0tl, hndtl⟩ := List.nodup_cons.1 hnd
    have hij0 : i ≠ j0 := fun h => hi (h ▸ List.mem_cons_self j0 tl)
    have hitl : i ∉ tl := fun h => hi (List.mem_cons_of_mem j0 h)
    rw [List.foldl_cons, ih hndtl hitl, pairStep_get v i j0 hij0 m a b,
      ite_and_mem_cons v.weight _ b j0 tl hj0tl,
      ite_and_mem_cons v.weight _ a j0 tl hj0tl]
    ring

lemma voteD_aux (v : SchulzeVote) (n : ℕ) :
    ∀ (is : List ℕ), is.Nodup → (∀ x ∈ is, x < n) → ∀ (m : Mat) (a b : ℕ),
      (is.foldl
          (fun m i => (List.range' (i + 1) (n - (i + 1))).foldl (pairStep v i) m) m) a b =
        m a b + (if (a < b ∧ b < n ∧ rnk v a < rnk v b) ∧ a ∈ is then v.weight else 0)
              + (if (b < a ∧ a < n ∧ rnk v a < rnk v b) ∧ b ∈ is then v.weight else 0) := by
  intro is
  induction is with
  | nil =>
    intro _ _ m a b
    simp
  | cons i0 tl ih =>
    intro hnd hlt m a b
    obtain ⟨hi0tl, hndtl⟩ := List.nodup_cons.1 hnd
    have hi0n : i0 < n := hlt i0 (List.mem_cons_self i0 tl)
    have hlttl : ∀ x ∈ tl, x < n := fun x hx => hlt x (List.mem_cons_of_mem i0 hx)
    have hjsnd : (List.range' (i0 + 1) (n - (i0 + 1))).Nodup := List.nodup_range' _ _
    have hi0js : i0 ∉ List.range' (i0 + 1) (n - (i0 + 1)) := by
      intro hmem
      rw [List.mem_range'_1] at hmem
      omega
    rw [List.foldl_cons, ih hndtl hlttl _ a b, pairStep_foldl v i0 _ hjsnd hi0js m a b]
    have hiff1 : ((a = i0 ∧ rnk v a < rnk v b) ∧ b ∈ List.range' (i0 + 1) (n - (i0 + 1))) ↔
        ((a < b ∧ b < n ∧ rnk v a < rnk v b) ∧ a = i0) := by
      rw [List.mem_range'_1]
      constructor
      · rintro ⟨⟨rfl, hr⟩, h1, h2⟩
        refine ⟨⟨by omega, by omega, hr⟩, rfl⟩
      · rintro ⟨⟨h1, h2, hr⟩, rfl⟩
        refine ⟨⟨rfl, hr⟩, by omega, by omega⟩
    have hiff2 : ((b = i0 ∧ rnk v a < rnk v b) ∧ a ∈ List.range' (i0 + 1) (n - (i0 + 1))) ↔
        ((b < a ∧ a < n ∧ rnk v a < rnk v b) ∧ b = i0) := by
      rw [List.mem_range'_1]
      constructor
      · rintro ⟨⟨rfl, hr⟩, h1, h2⟩
        refine ⟨⟨by omega, by omega, hr⟩, rfl⟩
      · rintro ⟨⟨h1, h2, hr⟩, rfl⟩
        refine ⟨⟨rfl, hr⟩, by omega, by omega⟩
    rw [if_congr hiff1 rfl rfl, if_congr hiff2 rfl rfl,
      ite_and_mem_cons v.weight _ a i0 tl hi0tl,
      ite_and_mem_cons v.weight _ b i0 tl hi0tl]
    ring

lemma voteD_get (n : ℕ) (v : SchulzeVote) (m : Mat) (a b : ℕ) :
    voteD n m v a b =
      m a b + (if a < n ∧ b < n ∧ a ≠ b ∧ rnk v a < rnk v b then v.weight else 0) := by
  unfold voteD
  rw [voteD_aux v n (List.range n) (List.nodup_range n)
    (fun x hx => List.mem_range.1 hx) m a b]
  simp only [List.mem_range]
  split_ifs <;> omega

lemma computeD_aux (n : ℕ) :
    ∀ (votes : List SchulzeVote) (m : Mat) (a b : ℕ),
      (votes.foldl (voteD n) m) a b =
        m a b + (if a < n ∧ b < n ∧ a ≠ b then
          ((votes.filter (fun v => decide (rnk v a < rnk v b))).map
            (fun v => v.weight)).sum else 0) := by
  intro votes
  induction votes with
  | nil =>
    intro m a b
    split_ifs <;> simp
  | cons v vs ih =>
    intro m a b
    rw [List.foldl_cons, ih _ a b, voteD_get n v m a b]
    by_cases hr : rnk v a < rnk v b <;>
      simp [List.filter_cons, hr] <;>
      split_ifs <;> omega

/-- The entry characterisation of `computeD`: inside the `n × n` block and
off the diagonal, `D[a][b]` is the summed weight of the votes strictly
preferring option `a` to option `b`; every other entry is `0`. -/
lemma computeD_get (votes : List SchulzeVote) (n : ℕ) (a b : ℕ) :
    computeD votes n a b =
      if a < n ∧ b < n ∧ a ≠ b then
        ((votes.filter (fun v => decide (rnk v a < rnk v b))).map
          (fun v => v.weight)).sum else 0 := by
  unfold computeD
  rw [computeD_aux n votes zeroM a b]
  simp [zeroM]

/-- C3: with all rankings of length `n`, every off-diagonal entry
`D[a][b]` of the matrix built by `computeD` is the summed weight of
exactly the votes with `ranking[a] < ranking[b]` (votes with
`ranking[a] = ranking[b]` contribute to neither entry), and every
diagonal entry is `0`. -/
theorem computeD_spec (votes : List SchulzeVote) (n : ℕ)
    (hlen : ∀ v ∈ votes, v.ranking.length = n) :
    (∀ a b, a < n → b < n → a ≠ b →
        computeD votes n a b =
          ((votes.filter (fun v => decide (rnk v a < rnk v b))).map
            (fun v => v.weight)).sum) ∧
      ∀ i, computeD votes n i i = 0 := by
  clear hlen
  refine ⟨fun a b ha hb hab => ?_, fun i => ?_⟩
  · rw [computeD_get, if_pos ⟨ha, hb, hab⟩]
  · rw [computeD_get, if_neg (fun hc => hc.2.2 rfl)]

/-- Witness for C3 on two concrete ballots over two options. -/
theorem computeD_spec_witness :
    computeD [⟨1, [0, 1]⟩, ⟨2, [1, 0]⟩] 2 0 1 =
        ((([⟨1, [0, 1]⟩, ⟨2, [1, 0]⟩] : List SchulzeVote).filter
          (fun v => decide (rnk v 0 < rnk v 1))).map (fun v => v.weight)).sum ∧
      computeD [⟨1, [0, 1]⟩, ⟨2, [1, 0]⟩] 2 0 0 = 0 :=
  ⟨(computeD_spec [⟨1, [0, 1]⟩, ⟨2, [1, 0]⟩] 2 (by decide)).1 0 1
      (by decide) (by decide) (by decide),
    (computeD_spec [⟨1, [0, 1]⟩, ⟨2, [1, 0]⟩] 2 (by decide)).2 0⟩

lemma totalWeightS_cons (v : SchulzeVote) (vs : List SchulzeVote) :
    totalWeightS (v :: vs) = v.weight + totalWeightS vs := by
  simp [totalWeightS]

lemma filter_sum_trichotomy (votes : List SchulzeVote) (a b : ℕ) :
    ((votes.filter (fun v => decide (rnk v a < rnk v b))).map (fun v => v.weight)).sum
      + ((votes.filter (fun v => decide (rnk v b < rnk v a))).map (fun v => v.weight)).sum
      + ((votes.filter (fun v => decide (rnk v a = rnk v b))).map (fun v => v.weight)).sum
      = totalWeightS votes := by
  induction votes with
  | nil => simp [totalWeightS]
  | cons v vs ih =>
    rcases lt_trichotomy (rnk v a) (rnk v b) with h | h | h
    · have h2 : ¬rnk v b < rnk v a := by omega
      have h3 : ¬rnk v a = rnk v b := by omega
      simp only [List.filter_cons, totalWeightS_cons, decide_eq_true_eq, if_pos h,
        if_neg h2, if_neg h3, List.map_cons, List.sum_cons]
      omega
    · have h1 : ¬rnk v a < rnk v b := by omega
      have h2 : ¬rnk v b < rnk v a := by omega
      simp only [List.filter_cons, totalWeightS_cons, decide_eq_true_eq, if_neg h1,
        if_neg h2, if_pos h, List.map_cons, List.sum_cons]
      omega
    · have h1 : ¬rnk v a < rnk v b := by omega
      have h3 : ¬rnk v a = rnk v b := by omega
      simp only [List.filter_cons, totalWeightS_cons, decide_eq_true_eq, if_neg h1,
        if_pos h, if_neg h3, List.map_cons, List.sum_cons]
      omega

lemma weightSum_filter_nonneg (l : List SchulzeVote) (hw : ∀ v ∈ l, 0 ≤ v.weight)
    (p : SchulzeVote → Bool) :
    0 ≤ ((l.filter p).map (fun v => v.weight)).sum := by
  apply List.sum_nonneg
  intro y hy
  simp only [List.mem_map, List.mem_filter] at hy
  obtain ⟨v, ⟨hv, _⟩, rfl⟩ := hy
  exact hw v hv

lemma weightSum_filter_eq_zero_iff (l : List SchulzeVote)
    (hw : ∀ v ∈ l, 0 ≤ v.weight) (p : SchulzeVote → Bool) :
    ((l.filter p).map (fun v => v.weight)).sum = 0 ↔
      ∀ v ∈ l, p v = true → v.weight = 0 := by
  induction l with
  | nil => simp
  | cons v vs ih =>
    have hw' : ∀ u ∈ vs, 0 ≤ u.weight := fun u hu => hw u (List.mem_cons_of_mem v hu)
    have hSnn : 0 ≤ ((vs.filter p).map (fun u => u.weight)).sum :=
      weightSum_filter_nonneg vs hw' p
    have hvw : 0 ≤ v.weight := hw v (List.mem_cons_self v vs)
    by_cases hp : p v = true
    · rw [List.filter_cons, if_pos hp, List.map_cons, List.sum_cons]
      constructor
      · intro h
        have hv0 : v.weight = 0 := by omega
        have hS0 : ((vs.filter p).map (fun u => u.weight)).sum = 0 := by omega
        intro u hu hpu
        rcases List.mem_cons.1 hu with rfl | hur
        · exact hv0
        · exact (ih hw').1 hS0 u hur hpu
      · intro h
        have hv0 : v.weight = 0 := h v (List.mem_cons_self v vs) hp
        have hS0 : ((vs.filter p).map (fun u => u.weight)).sum = 0 :=
          (ih hw').2 fun u hu hpu => h u (List.mem_cons_of_mem v hu) hpu
        omega
    · rw [List.filter_cons, if_neg hp]
      rw [ih hw']
      constructor
      · intro h u hu hpu
        rcases List.mem_cons.1 hu with rfl | hur
        · exact absurd hpu hp
        · exact h u hur hpu
      · intro h u hu hpu
        exact h u (List.mem_cons_of_mem v hu) hpu

/-- C6 counterexample: a single ballot of weight `0` that is indifferent
between the two options. `D[0][1] + D[1][0] = 0 = totalWeight`, so
equality holds, yet a ballot is indifferent between `0` and `1`: the
stated "equality iff no ballot is indifferent" fails. -/
theorem computeD_pairSum_counterexample :
    computeD [⟨0, [0, 0]⟩] 2 0 1 + computeD [⟨0, [0, 0]⟩] 2 1 0 =
        totalWeightS [⟨0, [0, 0]⟩] ∧
      ¬(∀ v ∈ ([⟨0, [0, 0]⟩] : List SchulzeVote), ¬rnk v 0 = rnk v 1) := by
  constructor
  · decide
  · intro h
    exact h ⟨0, [0, 0]⟩ (List.mem_cons_self _ _) (by decide)

/-- C6 (amended): for non-negative weights and rankings of length `n`,
`D[a][b] + D[b][a] ≤ totalWeight` for all `a ≠ b` in range, with equality
iff every vote that is indifferent between `a` and `b` has weight `0`
(in particular equality holds when no vote is indifferent). -/
theorem computeD_pairSum (votes : List SchulzeVote) (n : ℕ)
    (hw : ∀ v ∈ votes, 0 ≤ v.weight) (hlen : ∀ v ∈ votes, v.ranking.length = n)
    (a b : ℕ) (ha : a < n) (hb : b < n) (hab : a ≠ b) :
    computeD votes n a b + computeD votes n b a ≤ totalWeightS votes ∧
      (computeD votes n a b + computeD votes n b a = totalWeightS votes ↔
        ∀ v ∈ votes, rnk v a = rnk v b → v.weight = 0) := by
  clear hlen
  rw [computeD_get, if_pos ⟨ha, hb, hab⟩,
    computeD_get, if_pos ⟨hb, ha, fun h => hab h.symm⟩]
  have htri := filter_sum_trichotomy votes a b
  have hnn : 0 ≤ ((votes.filter (fun v => decide (rnk v a = rnk v b))).map
      (fun v => v.weight)).sum := weightSum_filter_nonneg votes hw _
  constructor
  · omega
  · rw [show (((votes.filter (fun v => decide (rnk v a < rnk v b))).map
        (fun v => v.weight)).sum
        + ((votes.filter (fun v => decide (rnk v b < rnk v a))).map
          (fun v => v.weight)).sum = totalWeightS votes) ↔
        (((votes.filter (fun v => decide (rnk v a = rnk v b))).map
          (fun v => v.weight)).sum = 0) from by omega]
    rw [weightSum_filter_eq_zero_iff votes hw _]
    simp only [decide_eq_true_eq]

/-- Witness for the amended C6 at a concrete ballot list with no
indifference: equality holds. -/
theorem computeD_pairSum_witness :
    computeD [⟨1, [0, 1]⟩, ⟨2, [1, 0]⟩] 2 0 1 + computeD [⟨1, [0, 1]⟩, ⟨2, [1, 0]⟩] 2 1 0 ≤
        totalWeightS [⟨1, [0, 1]⟩, ⟨2, [1, 0]⟩] ∧
      (computeD [⟨1, [0, 1]⟩, ⟨2, [1, 0]⟩] 2 0 1 +
            computeD [⟨1, [0, 1]⟩, ⟨2, [1, 0]⟩] 2 1 0 =
          totalWeightS [⟨1, [0, 1]⟩, ⟨2, [1, 0]⟩] ↔
        ∀ v ∈ ([⟨1, [0, 1]⟩, ⟨2, [1, 0]⟩] : List SchulzeVote),
          rnk v 0 = rnk v 1 → v.weight = 0) :=
  computeD_pairSum [⟨1, [0, 1]⟩, ⟨2, [1, 0]⟩] 2 (by decide) (by decide) 0 1
    (by decide) (by decide) (by decide)

/-- C7: for `n ≥ 1`, `computePercentage` returns exactly `n-1` entries;
entry `i` is `D[i][n-1] / weightSum`, and when `weightSum = 0` every
entry is exactly `0` — the division branch is never taken with a zero
divisor, so no indeterminate value arises (float64 division modelled by
exact division in `ℚ`). -/
theorem computePercentage_spec (d : Mat) (n : ℕ) (ws : ℤ) (hn : 1 ≤ n) :
    (computePercentage d n ws).length = n - 1 ∧
      ∀ i, i < n - 1 →
        (computePercentage d n ws).getD i 0 =
          if ws = 0 then 0 else (d i (n - 1) : ℚ) / (ws : ℚ) := by
  unfold computePercentage
  have hn0 : ¬n = 0 := by omega
  rw [if_neg hn0]
  by_cases hws : ws = 0
  · rw [if_pos hws]
    refine ⟨List.length_replicate n.pred 0, fun i hi => ?_⟩
    rw [if_pos hws, List.getD_eq_getElem?_getD, List.getElem?_replicate_of_lt hi]
    rfl
  · rw [if_neg hws]
    refine ⟨by simp, fun i hi => ?_⟩
    rw [if_neg hws, List.getD_eq_getElem?_getD, List.getElem?_map,
      List.getElem?_range hi]
    rfl

/-- Witness for C7: `n = 3`, the zero matrix and total weight `0`. -/
theorem computePercentage_spec_witness :
    (computePercentage zeroM 3 0).length = 3 - 1 ∧
      ∀ i, i < 3 - 1 →
        (computePercentage zeroM 3 0).getD i 0 =
          if (0 : ℤ) = 0 then 0 else (zeroM i (3 - 1) : ℚ) / ((0 : ℤ) : ℚ) :=
  computePercentage_spec zeroM 3 0 (by decide)

/-- The validation loop succeeds iff every ranking has length `n`, and on
failure it reports `n` and the length of an offending ranking. -/
lemma weightCheck_spec (n : ℕ) (votes : List SchulzeVote) :
    ((∃ s, weightCheck n votes = Except.ok s) ↔ ∀ v ∈ votes, v.ranking.length = n) ∧
      ∀ e, weightCheck n votes = Except.error e →
        e.expected = n ∧ ∃ v ∈ votes, v.ranking.length = e.got ∧ e.got ≠ n := by
  induction votes with
  | nil =>
    refine ⟨⟨fun _ v hv => absurd hv (List.not_mem_nil v), fun _ => ⟨0, rfl⟩⟩, ?_⟩
    intro e he
    exact absurd he (by simp [weightCheck])
  | cons v vs ih =>
    by_cases hlen : v.ranking.length ≠ n
    · constructor
      · constructor
        · rintro ⟨s, hs⟩
          rw [weightCheck, if_pos hlen] at hs
          cases hs
        · intro h
          exact absurd (h v (List.mem_cons_self v vs)) hlen
      · intro e he
        rw [weightCheck, if_pos hlen] at he
        cases he
        exact ⟨rfl, v, List.mem_cons_self v vs, rfl, hlen⟩
    · push_neg at hlen
      constructor
      · constructor
        · rintro ⟨s, hs⟩
          rw [weightCheck, if_neg (by omega)] at hs
          intro u hu
          rcases List.mem_cons.1 hu with rfl | hur
          · exact hlen
          · refine (ih.1.1 ?_) u hur
            cases hwc : weightCheck n vs with
            | ok s' => exact ⟨s', rfl⟩
            | error e' =>
              rw [hwc] at hs
              cases hs
        · intro h
          obtain ⟨s', hs'⟩ := ih.1.2 fun u hu => h u (List.mem_cons_of_mem v hu)
          refine ⟨v.weight + s', ?_⟩
          rw [weightCheck, if_neg (by omega), hs']
          rfl
      · intro e he
        rw [weightCheck, if_neg (by omega)] at he
        cases hwc : weightCheck n vs with
        | ok s' =>
          rw [hwc] at he
          cases he
        | error e' =>
          rw [hwc] at he
          cases he
          obtain ⟨h1, u, hu, h2, h3⟩ := ih.2 _ hwc
          exact ⟨h1, u, List.mem_cons_of_mem v hu, h2, h3⟩

/-- On success `weightCheck` returns the sum of the weights. -/
lemma weightCheck_ok_sum (n : ℕ) (votes : List SchulzeVote) (s : ℤ)
    (h : weightCheck n votes = Except.ok s) : s = totalWeightS votes := by
  induction votes generalizing s with
  | nil =>
    rw [weightCheck] at h
    cases h
    rfl
  | cons v vs ih =>
    rw [weightCheck] at h
    split_ifs at h
    cases hwc : weightCheck n vs with
    | ok s' =>
      rw [hwc] at h
      cases h
      rw [totalWeightS_cons, ih s' hwc]
    | error e' =>
      rw [hwc] at h
      cases h

/-- C5: `EvaluateSchulze` fails iff some ranking length differs from `n`;
the error carries the expected length `n` and the actual length of an
offending ranking; when every ranking has length `n` it returns a result. -/
theorem EvaluateSchulze_error_spec (votes : List SchulzeVote) (n : ℕ) (p : ℚ) :
    ((∃ r, EvaluateSchulze votes n p = Except.ok r) ↔
        ∀ v ∈ votes, v.ranking.length = n) ∧
      ∀ e, EvaluateSchulze votes n p = Except.error e →
        e.expected = n ∧ ∃ v ∈ votes, v.ranking.length = e.got ∧ e.got ≠ n := by
  unfold EvaluateSchulze EvaluateSchulzeSched
  constructor
  · constructor
    · rintro ⟨r, hr⟩
      cases hwc : weightCheck n votes with
      | ok s => exact (weightCheck_spec n votes).1.1 ⟨s, hwc⟩
      | error e =>
        rw [hwc] at hr
        cases hr
    · intro h
      obtain ⟨s, hs⟩ := (weightCheck_spec n votes).1.2 h
      rw [hs]
      exact ⟨_, rfl⟩
  · intro e he
    cases hwc : weightCheck n votes with
    | ok s =>
      rw [hwc] at he
      cases he
    | error e' =>
      rw [hwc] at he
      cases he
      exact (weightCheck_spec n votes).2 _ hwc

/-- Witness for C5: a vote list whose second ranking has length `1 ≠ 2`. -/
theorem EvaluateSchulze_error_spec_witness :
    ((∃ r, EvaluateSchulze [⟨1, [0, 1]⟩, ⟨1, [0]⟩] 2 (1/2) = Except.ok r) ↔
        ∀ v ∈ ([⟨1, [0, 1]⟩, ⟨1, [0]⟩] : List SchulzeVote), v.ranking.length = 2) ∧
      ∀ e, EvaluateSchulze [⟨1, [0, 1]⟩, ⟨1, [0]⟩] 2 (1/2) = Except.error e →
        e.expected = 2 ∧
          ∃ v ∈ ([⟨1, [0, 1]⟩, ⟨1, [0]⟩] : List SchulzeVote),
            v.ranking.length = e.got ∧ e.got ≠ 2 :=
  EvaluateSchulze_error_spec [⟨1, [0, 1]⟩, ⟨1, [0]⟩] 2 (1/2)

/-! ### Characterisation of rankP -/

lemma headD_mem {l : List ℕ} (h : l ≠ []) : l.headD 0 ∈ l := by
  cases l with
  | nil => exact absurd rfl h
  | cons a tl => exact List.mem_cons_self a tl

lemma buckets_flatten_perm (f : ℕ → ℕ) :
    ∀ (ks : List ℕ) (l : List ℕ), ks.Nodup → (∀ x ∈ l, f x ∈ ks) →
      ((ks.map (fun c => l.filter (fun i => decide (f i = c)))).flatten).Perm l := by
  intro ks
  induction ks with
  | nil =>
    intro l _ hmem
    have hl : l = [] := by
      cases l with
      | nil => rfl
      | cons x xs => exact absurd (hmem x (List.mem_cons_self x xs)) (List.not_mem_nil _)
    subst hl
    exact List.Perm.refl _
  | cons k ks' ih =>
    intro l hnd hmem
    obtain ⟨hkks, hnd'⟩ := List.nodup_cons.1 hnd
    rw [List.map_cons, List.flatten_cons]
    have hcongr : ∀ c ∈ ks',
        l.filter (fun i => decide (f i = c)) =
          (l.filter (fun i => !decide (f i = k))).filter (fun i => decide (f i = c)) := by
      intro c hc
      rw [List.filter_filter]
      apply List.filter_congr
      intro x _
      have hck : ¬c = k := fun hh => hkks (hh ▸ hc)
      by_cases hfx : f x = c
      · have hfxk : ¬f x = k := fun hk => hck (hfx ▸ hk)
        simp [hfx, hfxk, hck]
      · simp [hfx]
    have hmap : ks'.map (fun c => l.filter (fun i => decide (f i = c))) =
        ks'.map (fun c =>
          (l.filter (fun i => !decide (f i = k))).filter (fun i => decide (f i = c))) :=
      List.map_congr_left hcongr
    rw [hmap]
    have hmem' : ∀ x ∈ l.filter (fun i => !decide (f i = k)), f x ∈ ks' := by
      intro x hx
      obtain ⟨hxl, hxk⟩ := List.mem_filter.1 hx
      rcases List.mem_cons.1 (hmem x hxl) with h | h
      · exfalso
        simp only [Bool.not_eq_eq_eq_not, Bool.not_true, decide_eq_false_iff_not] at hxk
        exact hxk h
      · exact h
    have hperm' := ih (l.filter (fun i => !decide (f i = k))) hnd' hmem'
    exact (List.Perm.append_left _ hperm').trans
      (List.filter_append_perm (fun i => decide (f i = k)) l)

lemma rankPSched_keys (p : Mat) (n : ℕ) (order : List ℕ)
    (h : order.Perm (List.range n)) :
    List.insertionSort natGE ((order.map (winCount p n)).dedup) =
      List.insertionSort natGE (((List.range n).map (winCount p n)).dedup) := by
  have hperm : ((order.map (winCount p n)).dedup).Perm
      (((List.range n).map (winCount p n)).dedup) :=
    List.Perm.dedup (List.Perm.map _ h)
  exact List.eq_of_perm_of_sorted
    ((List.perm_insertionSort _ _).trans
      (hperm.trans (List.perm_insertionSort _ _).symm))
    (List.sorted_insertionSort _ _) (List.sorted_insertionSort _ _)

lemma rankP_sortedKeys_nodup (p : Mat) (n : ℕ) (order : List ℕ) :
    (List.insertionSort natGE ((order.map (winCount p n)).dedup)).Nodup :=
  List.Perm.nodup (List.perm_insertionSort _ _).symm (List.nodup_dedup _)

lemma rankP_mem_sortedKeys (p : Mat) (n : ℕ) (order : List ℕ) (c : ℕ) :
    c ∈ List.insertionSort natGE ((order.map (winCount p n)).dedup) ↔
      ∃ i ∈ order, winCount p n i = c := by
  rw [(List.perm_insertionSort natGE _).mem_iff, List.mem_dedup, List.mem_map]

/-- C4: for `n ≥ 1`, `rankP` partitions the option indices `0, …, n-1`
into non-empty groups (each option appears in exactly one group), all
options in one group share the same pairwise win count, and the groups
appear in strictly descending order of win count. -/
theorem rankP_spec (p : Mat) (n : ℕ) (hn : 1 ≤ n) :
    ((rankP p n).flatten).Perm (List.range n) ∧
      (∀ g ∈ rankP p n, g ≠ []) ∧
      (∀ g ∈ rankP p n, ∀ a ∈ g, ∀ b ∈ g, winCount p n a = winCount p n b) ∧
      List.Pairwise
        (fun g h => winCount p n (h.headD 0) < winCount p n (g.headD 0))
        (rankP p n) := by
  clear hn
  have hbne : ∀ c ∈ List.insertionSort natGE
      (((List.range n).map (winCount p n)).dedup),
      (List.range n).filter (fun i => decide (winCount p n i = c)) ≠ [] := by
    intro c hc
    obtain ⟨i, hi, hwc⟩ := (rankP_mem_sortedKeys p n (List.range n) c).1 hc
    intro hnil
    have : i ∈ (List.range n).filter (fun i => decide (winCount p n i = c)) :=
      List.mem_filter.2 ⟨hi, by simp [hwc]⟩
    rw [hnil] at this
    exact List.not_mem_nil i this
  have hhead : ∀ c ∈ List.insertionSort natGE
      (((List.range n).map (winCount p n)).dedup),
      winCount p n
        (((List.range n).filter (fun i => decide (winCount p n i = c))).headD 0) = c := by
    intro c hc
    have hmem := headD_mem (hbne c hc)
    obtain ⟨_, hwc⟩ := List.mem_filter.1 hmem
    simpa using hwc
  refine ⟨?_, ?_, ?_, ?_⟩
  · exact buckets_flatten_perm (winCount p n) _ (List.range n)
      (rankP_sortedKeys_nodup p n (List.range n))
      (fun x hx => (rankP_mem_sortedKeys p n (List.range n) _).2 ⟨x, hx, rfl⟩)
  · intro g hg
    obtain ⟨c, hc, rfl⟩ := List.mem_map.1 hg
    exact hbne c hc
  · intro g hg a ha b hb
    obtain ⟨c, hc, rfl⟩ := List.mem_map.1 hg
    obtain ⟨_, hwa⟩ := List.mem_filter.1 ha
    obtain ⟨_, hwb⟩ := List.mem_filter.1 hb
    simp only [decide_eq_true_eq] at hwa hwb
    rw [hwa, hwb]
  · apply List.pairwise_map.2
    have hlt : List.Pairwise (fun c1 c2 => c2 < c1)
        (List.insertionSort natGE (((List.range n).map (winCount p n)).dedup)) := by
      have hs : List.Pairwise natGE
          (List.insertionSort natGE (((List.range n).map (winCount p n)).dedup)) :=
        List.sorted_insertionSort _ _
      have hnd := rankP_sortedKeys_nodup p n (List.range n)
      exact (hs.and hnd).imp fun hab => lt_of_le_of_ne hab.1 (Ne.symm hab.2)
    refine hlt.imp_of_mem ?_
    intro c1 c2 h1 h2 hlt12
    rw [hhead c1 h1, hhead c2 h2]
    exact hlt12

/-- Witness for C4: the zero matrix with two options. -/
theorem rankP_spec_witness :
    ((rankP zeroM 2).flatten).Perm (List.range 2) ∧
      (∀ g ∈ rankP zeroM 2, g ≠ []) ∧
      (∀ g ∈ rankP zeroM 2, ∀ a ∈ g, ∀ b ∈ g, winCount zeroM 2 a = winCount zeroM 2 b) ∧
      List.Pairwise
        (fun g h => winCount zeroM 2 (h.headD 0) < winCount zeroM 2 (g.headD 0))
        (rankP zeroM 2) :=
  rankP_spec zeroM 2 (by decide)

lemma rankPSched_perm (p : Mat) (n : ℕ) (order : List ℕ)
    (h : order.Perm (List.range n)) :
    (rankPSched p n order).length = (rankPSched p n (List.range n)).length ∧
      ∀ t, ((rankPSched p n order).getD t []).Perm
        ((rankPSched p n (List.range n)).getD t []) := by
  unfold rankPSched
  dsimp only
  rw [rankPSched_keys p n order h]
  refine ⟨by simp, fun t => ?_⟩
  rw [List.getD_eq_getElem?_getD, List.getD_eq_getElem?_getD, List.getElem?_map,
    List.getElem?_map]
  cases hS : (List.insertionSort natGE
      (((List.range n).map (winCount p n)).dedup))[t]? with
  | none => exact List.Perm.refl _
  | some c =>
    simp only [Option.map_some', Option.getD_some]
    exact List.Perm.filter _ h

/-- C8 counterexample: scheduling changes the result. With no votes and
two options both options have win count `0`; the goroutine completion
order `[1, 0]` produces the ranked groups `[[1, 0]]` while the completion
order `[0, 1]` produces `[[0, 1]]`: the result is not identical across
schedules, the order inside a group depends on the scheduling. -/
theorem EvaluateSchulzeSched_counterexample :
    ([1, 0] : List ℕ).Perm (List.range 2) ∧
      rankedOf (EvaluateSchulzeSched [1, 0] [] 2 (1/2)) ≠
        rankedOf (EvaluateSchulze [] 2 (1/2)) := by
  constructor
  · decide
  · decide

/-- C8 (amended): evaluation is deterministic up to the order of options
inside a rank group: for every goroutine completion order (permutation of
`0, …, n-1`), `EvaluateSchulzeSched` returns the same `votesRequired`,
the same `D`, the same `P` and the same percentages as `EvaluateSchulze`,
and ranked groups of the same number, where the group at each position is
a permutation of the corresponding group; re-running the strongest-path
computation on the same `D` yields an identical `P` (it is a pure
function of `D`). -/
theorem EvaluateSchulzeSched_spec (votes : List SchulzeVote) (n : ℕ) (p : ℚ)
    (order : List ℕ) (h : order.Perm (List.range n)) :
    vrOf (EvaluateSchulzeSched order votes n p) = vrOf (EvaluateSchulze votes n p) ∧
      dOf (EvaluateSchulzeSched order votes n p) = dOf (EvaluateSchulze votes n p) ∧
      pOf (EvaluateSchulzeSched order votes n p) = pOf (EvaluateSchulze votes n p) ∧
      percentsOf (EvaluateSchulzeSched order votes n p) =
        percentsOf (EvaluateSchulze votes n p) ∧
      (rankedOf (EvaluateSchulzeSched order votes n p)).length =
        (rankedOf (EvaluateSchulze votes n p)).length ∧
      ∀ t, ((rankedOf (EvaluateSchulzeSched order votes n p)).getD t []).Perm
        ((rankedOf (EvaluateSchulze votes n p)).getD t []) := by
  unfold EvaluateSchulze EvaluateSchulzeSched
  cases hwc : weightCheck n votes with
  | error e =>
    exact ⟨rfl, rfl, rfl, rfl, rfl, fun t => List.Perm.refl _⟩
  | ok s =>
    refine ⟨rfl, rfl, rfl, rfl, ?_, ?_⟩
    · exact (rankPSched_perm (computeP (computeD votes n) n) n order h).1
    · exact (rankPSched_perm (computeP (computeD votes n) n) n order h).2

/-- Witness for the amended C8: one ballot, two options, completion
order `[1, 0]`. -/
theorem EvaluateSchulzeSched_spec_witness :
    vrOf (EvaluateSchulzeSched [1, 0] [⟨1, [0, 1]⟩] 2 (1/2)) =
        vrOf (EvaluateSchulze [⟨1, [0, 1]⟩] 2 (1/2)) ∧
      dOf (EvaluateSchulzeSched [1, 0] [⟨1, [0, 1]⟩] 2 (1/2)) =
        dOf (EvaluateSchulze [⟨1, [0, 1]⟩] 2 (1/2)) ∧
      pOf (EvaluateSchulzeSched [1, 0] [⟨1, [0, 1]⟩] 2 (1/2)) =
        pOf (EvaluateSchulze [⟨1, [0, 1]⟩] 2 (1/2)) ∧
      percentsOf (EvaluateSchulzeSched [1, 0] [⟨1, [0, 1]⟩] 2 (1/2)) =
        percentsOf (EvaluateSchulze [⟨1, [0, 1]⟩] 2 (1/2)) ∧
      (rankedOf (EvaluateSchulzeSched [1, 0] [⟨1, [0, 1]⟩] 2 (1/2))).length =
        (rankedOf (EvaluateSchulze [⟨1, [0, 1]⟩] 2 (1/2))).length ∧
      ∀ t, ((rankedOf (EvaluateSchulzeSched [1, 0] [⟨1, [0, 1]⟩] 2 (1/2))).getD t []).Perm
        ((rankedOf (EvaluateSchulze [⟨1, [0, 1]⟩] 2 (1/2))).getD t []) :=
  EvaluateSchulzeSched_spec [⟨1, [0, 1]⟩] 2 (1/2) [1, 0] (by decide)

/-! ### The widening loop of computeP: in place equals simultaneous -/

lemma fwRow_get (n i j : ℕ) (hij : i ≠ j) :
    ∀ (ks : List ℕ), ks.Nodup → ∀ (m : Mat) (a b : ℕ),
      (ks.foldl
          (fun R k => if i = k ∨ j = k then R
            else setM R j k (max (R j k) (min (R j i) (R i k)))) m) a b =
        if a = j ∧ b ∈ ks ∧ b ≠ i ∧ b ≠ j then max (m j b) (min (m j i) (m i b))
        else m a b := by
  intro ks
  induction ks with
  | nil =>
    intro _ m a b
    simp
  | cons k0 tl ih =>
    intro hnd m a b
    obtain ⟨hk0tl, hndtl⟩ := List.nodup_cons.1 hnd
    rw [List.foldl_cons]
    by_cases hsk : i = k0 ∨ j = k0
    · rw [if_pos hsk, ih hndtl m a b]
      by_cases hc : a = j ∧ b ∈ tl ∧ b ≠ i ∧ b ≠ j
      · rw [if_pos hc,
          if_pos ⟨hc.1, List.mem_cons_of_mem k0 hc.2.1, hc.2.2⟩]
      · rw [if_neg hc, if_neg ?_]
        rintro ⟨ha, hb, hbi, hbj⟩
        rcases List.mem_cons.1 hb with rfl | hbtl
        · rcases hsk with rfl | rfl
          · exact hbi rfl
          · exact hbj rfl
        · exact hc ⟨ha, hbtl, hbi, hbj⟩
    · push_neg at hsk
      obtain ⟨hik0, hjk0⟩ := hsk
      rw [if_neg (by tauto), ih hndtl _ a b]
      have hm1 : ∀ b', b' ≠ k0 →
          setM m j k0 (max (m j k0) (min (m j i) (m i k0))) j b' = m j b' := by
        intro b' hb'
        rw [setM_apply, if_neg (fun hc => hb' hc.2)]
      have hmji : setM m j k0 (max (m j k0) (min (m j i) (m i k0))) j i = m j i :=
        hm1 i hik0
      have hmib : ∀ b',
          setM m j k0 (max (m j k0) (min (m j i) (m i k0))) i b' = m i b' := by
        intro b'
        rw [setM_apply, if_neg (fun hc => hij hc.1)]
      by_cases hc : a = j ∧ b ∈ tl ∧ b ≠ i ∧ b ≠ j
      · obtain ⟨rfl, hbtl, hbi, hbj⟩ := hc
        have hbk0 : b ≠ k0 := fun h => hk0tl (h ▸ hbtl)
        rw [if_pos ⟨rfl, hbtl, hbi, hbj⟩,
          if_pos ⟨rfl, List.mem_cons_of_mem k0 hbtl, hbi, hbj⟩,
          hm1 b hbk0, hmji, hmib b]
      · rw [if_neg hc]
        by_cases hhead : a = j ∧ b = k0
        · obtain ⟨h1, h2⟩ := hhead
          rw [h1, h2, setM_apply]
          have hki : k0 ≠ i := fun h => hik0 h.symm
          have hkj : k0 ≠ j := fun h => hjk0 h.symm
          rw [if_pos ⟨rfl, rfl⟩, if_pos ⟨rfl, List.mem_cons_self k0 tl, hki, hkj⟩]
        · rw [setM_apply, if_neg hhead, if_neg ?_]
          rintro ⟨ha, hb, hbi, hbj⟩
          rcases List.mem_cons.1 hb with rfl | hbtl
          · exact hhead ⟨ha, rfl⟩
          · exact hc ⟨ha, hbtl, hbi, hbj⟩

lemma fwUpdate_get (n i : ℕ) :
    ∀ (js : List ℕ), js.Nodup → ∀ (m : Mat) (a b : ℕ),
      (js.foldl (fun Q j => if i = j then Q else fwRow n i j Q) m) a b =
        if a ∈ js ∧ a ≠ i ∧ b < n ∧ b ≠ i ∧ b ≠ a
        then max (m a b) (min (m a i) (m i b))
        else m a b := by
  intro js
  induction js with
  | nil =>
    intro _ m a b
    simp
  | cons j0 tl ih =>
    intro hnd m a b
    obtain ⟨hj0tl, hndtl⟩ := List.nodup_cons.1 hnd
    rw [List.foldl_cons]
    by_cases hsk : i = j0
    · rw [if_pos hsk, ih hndtl m a b]
      by_cases hc : a ∈ tl ∧ a ≠ i ∧ b < n ∧ b ≠ i ∧ b ≠ a
      · rw [if_pos hc, if_pos ⟨List.mem_cons_of_mem j0 hc.1, hc.2⟩]
      · rw [if_neg hc, if_neg ?_]
        rintro ⟨ha, hai, hrest⟩
        rcases List.mem_cons.1 ha with rfl | hatl
        · exact hai hsk.symm
        · exact hc ⟨hatl, hai, hrest⟩
    · rw [if_neg hsk]
      have hrow : ∀ a' b', fwRow n i j0 m a' b' =
          if a' = j0 ∧ b' ∈ List.range n ∧ b' ≠ i ∧ b' ≠ j0
          then max (m j0 b') (min (m j0 i) (m i b'))
          else m a' b' :=
        fun a' b' => fwRow_get n i j0 (fun h => hsk h) (List.range n)
          (List.nodup_range n) m a' b'
      rw [ih hndtl _ a b]
      have hQab : ∀ a', a' ∈ tl →
          fwRow n i j0 m a' b = m a' b := by
        intro a' ha'
        rw [hrow a' b]
        apply if_neg
        rintro ⟨h1, _, _, _⟩
        exact hj0tl (h1 ▸ ha')
      have hQai : ∀ a', fwRow n i j0 m a' i = m a' i := by
        intro a'
        rw [hrow a' i]
        apply if_neg
        rintro ⟨_, _, h1, _⟩
        exact h1 rfl
      have hQib : ∀ b', fwRow n i j0 m i b' = m i b' := by
        intro b'
        rw [hrow i b']
        apply if_neg
        rintro ⟨h1, _, _, _⟩
        exact hsk h1
      by_cases hc : a ∈ tl ∧ a ≠ i ∧ b < n ∧ b ≠ i ∧ b ≠ a
      · obtain ⟨hatl, hai, hbn, hbi, hba⟩ := hc
        rw [if_pos ⟨hatl, hai, hbn, hbi, hba⟩,
          if_pos ⟨List.mem_cons_of_mem j0 hatl, hai, hbn, hbi, hba⟩,
          hQab a hatl, hQai a, hQib b]
      · rw [if_neg hc, hrow a b]
        by_cases hhead : a = j0 ∧ b ∈ List.range n ∧ b ≠ i ∧ b ≠ j0
        · obtain ⟨h1, hbn, hbi, hbj0⟩ := hhead
          rw [h1, if_pos ⟨rfl, hbn, hbi, hbj0⟩,
            if_pos ⟨List.mem_cons_self j0 tl, fun h => hsk h.symm,
              List.mem_range.1 hbn, hbi, hbj0⟩]
        · rw [if_neg hhead, if_neg ?_]
          rintro ⟨ha, hai, hbn, hbi, hba⟩
          rcases List.mem_cons.1 ha with h1 | hatl
          · exact hhead ⟨h1, List.mem_range.2 hbn, hbi, fun h => hba (h.trans h1.symm)⟩
          · exact hc ⟨hatl, hai, hbn, hbi, hba⟩

/-- The in-place widening iteration for intermediate `i` computes the
simultaneous update `fwStep`. -/
lemma fwUpdate_eq_fwStep (n : ℕ) (m : Mat) (i : ℕ) :
    fwUpdate n m i = fwStep n m i := by
  funext a b
  unfold fwUpdate fwStep
  rw [fwUpdate_get n i (List.range n) (List.nodup_range n) m a b]
  by_cases hc : a ∈ List.range n ∧ a ≠ i ∧ b < n ∧ b ≠ i ∧ b ≠ a
  · rw [if_pos hc, if_pos ⟨List.mem_range.1 hc.1, hc.2.2.1,
      fun h => hc.2.1 h.symm, fun h => hc.2.2.2.1 h.symm, fun h => hc.2.2.2.2 h.symm⟩]
  · rw [if_neg hc, if_neg ?_]
    rintro ⟨han, hbn, hia, hib, hab⟩
    exact hc ⟨List.mem_range.2 han, fun h => hia h.symm, hbn,
      fun h => hib h.symm, fun h => hab h.symm⟩

/-- `computeP` in terms of the simultaneous widening steps. -/
lemma computeP_eq_fwIter (d : Mat) (n : ℕ) : computeP d n = fwIter d n n := by
  unfold computeP fwIter
  have : (fun (m : Mat) (i : ℕ) => fwUpdate n m i) = fwStep n := by
    funext m i
    exact fwUpdate_eq_fwStep n m i
  rw [← this]

/-! ### Strongest-path correctness of computeP -/

lemma fwIter_zero (d : Mat) (n : ℕ) : fwIter d n 0 = seedP d n := rfl

lemma fwIter_succ (d : Mat) (n m : ℕ) :
    fwIter d n (m + 1) = fwStep n (fwIter d n m) m := by
  unfold fwIter
  rw [List.range_succ, List.foldl_append, List.foldl_cons, List.foldl_nil]

lemma seedP_nonneg (d : Mat) (n : ℕ) (hd : ∀ i j, i < n → j < n → 0 ≤ d i j)
    (a b : ℕ) : 0 ≤ seedP d n a b := by
  unfold seedP
  split_ifs with h
  · exact hd a b h.1 h.2.1
  · exact le_refl 0

lemma fwIter_nonneg (d : Mat) (n : ℕ) (hd : ∀ i j, i < n → j < n → 0 ≤ d i j) :
    ∀ (m : ℕ) (a b : ℕ), 0 ≤ fwIter d n m a b := by
  intro m
  induction m with
  | zero => exact seedP_nonneg d n hd
  | succ m ih =>
    intro a b
    rw [fwIter_succ]
    unfold fwStep
    split_ifs with h
    · have := ih a b
      have := le_max_left (fwIter d n m a b)
        (min (fwIter d n m a m) (fwIter d n m m b))
      omega
    · exact ih a b

lemma fwIter_diag (d : Mat) (n : ℕ) : ∀ (m : ℕ) (a : ℕ), fwIter d n m a a = 0 := by
  intro m
  induction m with
  | zero =>
    intro a
    show seedP d n a a = 0
    unfold seedP
    exact if_neg fun hc => hc.2.2.1 rfl
  | succ m ih =>
    intro a
    rw [fwIter_succ]
    unfold fwStep
    rw [if_neg fun hc => hc.2.2.2.2 rfl]
    exact ih a

lemma fwIter_mono (d : Mat) (n m : ℕ) (a b : ℕ) :
    fwIter d n m a b ≤ fwIter d n (m + 1) a b := by
  rw [fwIter_succ]
  unfold fwStep
  split_ifs with h
  · exact le_max_left _ _
  · exact le_refl _

lemma fwIter_mono_le (d : Mat) (n : ℕ) :
    ∀ (m m' : ℕ), m ≤ m' → ∀ (a b : ℕ), fwIter d n m a b ≤ fwIter d n m' a b := by
  intro m m'
  induction m' with
  | zero =>
    intro h a b
    have : m = 0 := by omega
    subst this
    exact le_refl _
  | succ k ih =>
    intro h a b
    rcases Nat.lt_succ_iff_lt_or_eq.1 (Nat.lt_succ_of_le h) with hlt | rfl
    · exact le_trans (ih (by omega) a b) (fwIter_mono d n k a b)
    · exact le_refl _

lemma fwIter_row (d : Mat) (n m : ℕ) (b : ℕ) :
    fwIter d n (m + 1) m b = fwIter d n m m b := by
  rw [fwIter_succ]
  unfold fwStep
  exact if_neg fun hc => hc.2.2.1 rfl

lemma walkOk_append (d : Mat) :
    ∀ (xs : List ℕ) (a v b : ℕ) (ys : List ℕ),
      walkOk d a (xs ++ v :: ys) b = (walkOk d a xs v && walkOk d v ys b) := by
  intro xs
  induction xs with
  | nil =>
    intro a v b ys
    rfl
  | cons x xs ih =>
    intro a v b ys
    simp only [List.cons_append, walkOk, List.append_eq, ih, Bool.and_assoc]

lemma walkStrength_append (d : Mat) :
    ∀ (xs : List ℕ) (a v b : ℕ) (ys : List ℕ),
      walkStrength d a (xs ++ v :: ys) b =
        min (walkStrength d a xs v) (walkStrength d v ys b) := by
  intro xs
  induction xs with
  | nil =>
    intro a v b ys
    rfl
  | cons x xs ih =>
    intro a v b ys
    simp only [List.cons_append, walkStrength, List.append_eq, ih, min_assoc]

lemma mem_first_split {a : ℕ} :
    ∀ {l : List ℕ}, a ∈ l → ∃ s t, l = s ++ a :: t ∧ a ∉ s := by
  intro l
  induction l with
  | nil => intro h; cases h
  | cons x xs ih =>
    intro h
    by_cases hxa : x = a
    · exact ⟨[], xs, by simp [hxa], List.not_mem_nil a⟩
    · have hmem : a ∈ xs := by
        rcases List.mem_cons.1 h with h1 | h1
        · exact absurd h1.symm hxa
        · exact h1
      obtain ⟨s, t, heq, hns⟩ := ih hmem
      refine ⟨x :: s, t, by rw [heq, List.cons_append], ?_⟩
      intro hc
      rcases List.mem_cons.1 hc with h1 | h1
      · exact hxa h1.symm
      · exact hns h1

/-- Attainment: a nonzero entry of the widening after `m` intermediate
vertices is the strength of an actual walk with interior vertices `< m`. -/
lemma fw_attain (d : Mat) (n : ℕ) (hd : ∀ i j, i < n → j < n → 0 ≤ d i j) :
    ∀ (m : ℕ), m ≤ n → ∀ (j k : ℕ), j < n → k < n → j ≠ k →
      fwIter d n m j k ≠ 0 →
      ∃ vs, (∀ v ∈ vs, v < m) ∧ walkOk d j vs k = true ∧
        walkStrength d j vs k = fwIter d n m j k := by
  intro m
  induction m with
  | zero =>
    intro _ j k hj hk hjk hne
    rw [fwIter_zero] at hne ⊢
    unfold seedP at hne ⊢
    split_ifs at hne ⊢ with hc
    · refine ⟨[], by simp, ?_, rfl⟩
      simp only [walkOk, decide_eq_true_eq]
      exact hc.2.2.2
    · exact absurd rfl hne
  | succ m ih =>
    intro hmn j k hj hk hjk hne
    rw [fwIter_succ] at hne ⊢
    unfold fwStep at hne ⊢
    by_cases hc : j < n ∧ k < n ∧ m ≠ j ∧ m ≠ k ∧ j ≠ k
    · rw [if_pos hc] at hne ⊢
      by_cases hle : min (fwIter d n m j m) (fwIter d n m m k) ≤ fwIter d n m j k
      · rw [max_eq_left hle] at hne ⊢
        obtain ⟨vs, h1, h2, h3⟩ := ih (by omega) j k hj hk hjk hne
        exact ⟨vs, fun v hv => Nat.lt_succ_of_lt (h1 v hv), h2, h3⟩
      · push_neg at hle
        rw [max_eq_right (le_of_lt hle)] at hne ⊢
        have hnn : 0 ≤ fwIter d n m j k := fwIter_nonneg d n hd m j k
        have hl1 := min_le_left (fwIter d n m j m) (fwIter d n m m k)
        have hl2 := min_le_right (fwIter d n m j m) (fwIter d n m m k)
        have hjm0 : fwIter d n m j m ≠ 0 := by omega
        have hmk0 : fwIter d n m m k ≠ 0 := by omega
        have hjm : j ≠ m := fun h => hc.2.2.1 h.symm
        have hmk : m ≠ k := hc.2.2.2.1
        obtain ⟨vs₁, a1, a2, a3⟩ := ih (by omega) j m hj (by omega) hjm hjm0
        obtain ⟨vs₂, b1, b2, b3⟩ := ih (by omega) m k (by omega) hk hmk hmk0
        refine ⟨vs₁ ++ m :: vs₂, ?_, ?_, ?_⟩
        · intro v hv
          rcases List.mem_append.1 hv with hv1 | hv1
          · exact Nat.lt_succ_of_lt (a1 v hv1)
          · rcases List.mem_cons.1 hv1 with rfl | hv2
            · exact Nat.lt_succ_self v
            · exact Nat.lt_succ_of_lt (b1 v hv2)
        · rw [walkOk_append, a2, b2]
          rfl
        · rw [walkStrength_append, a3, b3]
    · rw [if_neg hc] at hne ⊢
      obtain ⟨vs, h1, h2, h3⟩ := ih (by omega) j k hj hk hjk hne
      exact ⟨vs, fun v hv => Nat.lt_succ_of_lt (h1 v hv), h2, h3⟩

/-- Completeness: after `m` intermediate vertices, the widening dominates
the strength of every walk whose interior vertices are `< m`. -/
lemma fw_complete (d : Mat) (n : ℕ) :
    ∀ (m : ℕ), m ≤ n → ∀ (L : ℕ) (vs : List ℕ) (j k : ℕ), vs.length ≤ L →
      j < n → k < n → j ≠ k → (∀ v ∈ vs, v < m) → walkOk d j vs k = true →
      walkStrength d j vs k ≤ fwIter d n m j k := by
  intro m
  induction m with
  | zero =>
    intro _ _ vs j k _ hj hk hjk hint hwalk
    have hvs : vs = [] := by
      cases vs with
      | nil => rfl
      | cons v vs' => exact absurd (hint v (List.mem_cons_self v vs')) (Nat.not_lt_zero v)
    subst hvs
    have hedge : d k j < d j k := by
      simpa only [walkOk, decide_eq_true_eq] using hwalk
    have hseed : fwIter d n 0 j k = d j k := by
      rw [fwIter_zero]
      unfold seedP
      rw [if_pos ⟨hj, hk, hjk, hedge⟩]
    rw [hseed]
    exact le_refl _
  | succ m ih =>
    intro hmn L
    induction L with
    | zero =>
      intro vs j k hlen hj hk hjk hint hwalk
      have hvs : vs = [] := List.eq_nil_of_length_eq_zero (Nat.le_zero.1 hlen)
      subst hvs
      have hedge : d k j < d j k := by
        simpa only [walkOk, decide_eq_true_eq] using hwalk
      have hseed : fwIter d n 0 j k = d j k := by
        rw [fwIter_zero]
        unfold seedP
        rw [if_pos ⟨hj, hk, hjk, hedge⟩]
      have hmono := fwIter_mono_le d n 0 (m + 1) (by omega) j k
      rw [hseed] at hmono
      exact hmono
    | succ L ihL =>
      intro vs j k hlen hj hk hjk hint hwalk
      by_cases hmvs : m ∈ vs
      · obtain ⟨s, t, hvseq, hms⟩ := mem_first_split hmvs
        subst hvseq
        rw [walkOk_append, Bool.and_eq_true] at hwalk
        obtain ⟨hw1, hw2⟩ := hwalk
        rw [walkStrength_append]
        have hlent : t.length ≤ L := by
          rw [List.length_append, List.length_cons] at hlen
          omega
        have hintt : ∀ v ∈ t, v < m + 1 := fun v hv =>
          hint v (List.mem_append_of_mem_right s (List.mem_cons_of_mem m hv))
        have hints : ∀ v ∈ s, v < m := by
          intro v hv
          have h1 : v < m + 1 := hint v (List.mem_append_of_mem_left _ hv)
          have h2 : v ≠ m := fun he => hms (he ▸ hv)
          omega
        by_cases hmj : m = j
        · have hw2' : walkOk d j t k = true := by rw [← hmj]; exact hw2
          have h2 := ihL t j k hlent hj hk hjk hintt hw2'
          have heq : walkStrength d m t k = walkStrength d j t k := by rw [hmj]
          have := min_le_right (walkStrength d j s m) (walkStrength d m t k)
          omega
        · by_cases hmk : m = k
          · have hw1' : walkOk d j s k = true := by rw [← hmk]; exact hw1
            have h1 := ih (by omega) s.length s j k le_rfl hj hk hjk hints hw1'
            have hmono := fwIter_mono d n m j k
            have heq : walkStrength d j s m = walkStrength d j s k := by rw [hmk]
            have := min_le_left (walkStrength d j s m) (walkStrength d m t k)
            omega
          · have hmn' : m < n := by omega
            have h1 := ih (by omega) s.length s j m le_rfl hj hmn'
              (fun h => hmj h.symm) hints hw1
            have h2 := ihL t m k hlent hmn' hk hmk hintt hw2
            rw [fwIter_row] at h2
            rw [fwIter_succ]
            unfold fwStep
            rw [if_pos ⟨hj, hk, fun h => hmj h, fun h => hmk h, hjk⟩]
            omega
      · have hint' : ∀ v ∈ vs, v < m := by
          intro v hv
          have h1 := hint v hv
          have h2 : v ≠ m := fun he => hmvs (he ▸ hv)
          omega
        have h := ih (by omega) vs.length vs j k le_rfl hj hk hjk hint' hwalk
        have hmono := fwIter_mono d n m j k
        omega

lemma not_nodup_split :
    ∀ (l : List ℕ), ¬l.Nodup → ∃ x s t u, l = s ++ x :: t ++ x :: u := by
  intro l
  induction l with
  | nil => intro h; exact absurd List.nodup_nil h
  | cons a l' ih =>
    intro h
    by_cases hal : a ∈ l'
    · obtain ⟨t, u, heq⟩ := List.append_of_mem hal
      exact ⟨a, [], t, u, by simp [heq]⟩
    · have h' : ¬l'.Nodup := by
        intro hn
        exact h (List.nodup_cons.2 ⟨hal, hn⟩)
      obtain ⟨x, s, t, u, heq⟩ := ih h'
      exact ⟨x, a :: s, t, u, by simp [heq, List.cons_append, List.append_assoc]⟩

/-- Every walk contains a simple path (distinct interiors avoiding both
endpoints) between the same endpoints of at least the same strength. -/
lemma walk_to_path (d : Mat) :
    ∀ (L : ℕ) (vs : List ℕ) (j k : ℕ), vs.length ≤ L → j ≠ k →
      walkOk d j vs k = true →
      ∃ ws, ws.Nodup ∧ j ∉ ws ∧ k ∉ ws ∧ (∀ v ∈ ws, v ∈ vs) ∧
        walkOk d j ws k = true ∧ walkStrength d j vs k ≤ walkStrength d j ws k := by
  intro L
  induction L with
  | zero =>
    intro vs j k hlen hjk hw
    have hvs : vs = [] := List.eq_nil_of_length_eq_zero (Nat.le_zero.1 hlen)
    subst hvs
    exact ⟨[], List.nodup_nil, List.not_mem_nil j, List.not_mem_nil k,
      fun v hv => hv, hw, le_refl _⟩
  | succ L ihL =>
    intro vs j k hlen hjk hw
    by_cases hjvs : j ∈ vs
    · obtain ⟨s, t, heq⟩ := List.append_of_mem hjvs
      subst heq
      rw [walkOk_append, Bool.and_eq_true] at hw
      rw [walkStrength_append]
      have hlent : t.length ≤ L := by
        rw [List.length_append, List.length_cons] at hlen
        omega
      obtain ⟨ws, h1, h2, h3, h4, h5, h6⟩ := ihL t j k hlent hjk hw.2
      refine ⟨ws, h1, h2, h3, ?_, h5, ?_⟩
      · intro v hv
        exact List.mem_append_of_mem_right s (List.mem_cons_of_mem j (h4 v hv))
      · have := min_le_right (walkStrength d j s j) (walkStrength d j t k)
        omega
    · by_cases hkvs : k ∈ vs
      · obtain ⟨s, t, heq⟩ := List.append_of_mem hkvs
        subst heq
        rw [walkOk_append, Bool.and_eq_true] at hw
        rw [walkStrength_append]
        have hlens : s.length ≤ L := by
          rw [List.length_append, List.length_cons] at hlen
          omega
        obtain ⟨ws, h1, h2, h3, h4, h5, h6⟩ := ihL s j k hlens hjk hw.1
        refine ⟨ws, h1, h2, h3, ?_, h5, ?_⟩
        · intro v hv
          exact List.mem_append_of_mem_left _ (h4 v hv)
        · have := min_le_left (walkStrength d j s k) (walkStrength d k t k)
          omega
      · by_cases hnd : vs.Nodup
        · exact ⟨vs, hnd, hjvs, hkvs, fun v hv => hv, hw, le_refl _⟩
        · obtain ⟨x, s, t, u, heq⟩ := not_nodup_split vs hnd
          subst heq
          rw [walkOk_append, Bool.and_eq_true] at hw
          obtain ⟨hw1, hw2⟩ := hw
          rw [walkOk_append, Bool.and_eq_true] at hw1
          obtain ⟨hw1a, hw1b⟩ := hw1
          have hwnew : walkOk d j (s ++ x :: u) k = true := by
            rw [walkOk_append, Bool.and_eq_true]
            exact ⟨hw1a, hw2⟩
          have hlennew : (s ++ x :: u).length ≤ L := by
            simp only [List.length_append, List.length_cons] at hlen ⊢
            omega
          obtain ⟨ws, h1, h2, h3, h4, h5, h6⟩ := ihL (s ++ x :: u) j k hlennew hjk hwnew
          refine ⟨ws, h1, h2, h3, ?_, h5, ?_⟩
          · intro v hv
            have hv' := h4 v hv
            simp only [List.mem_append, List.mem_cons] at hv' ⊢
            tauto
          · rw [walkStrength_append] at h6
            rw [walkStrength_append, walkStrength_append]
            omega

/-- C1 (amended): for a pairwise matrix `D` with the non-negative entries
of the data model, `computeP` is non-negative, zero on the diagonal,
dominates the strength of every walk in the beats graph, attains its
value on a directed (simple) path whenever it is nonzero — so `P[i][j]`
is exactly the strength of the strongest path, `0` when none exists —
and satisfies the Schulze inequality `P[j][k] ≥ min(P[j][i], P[i][k])`
for all `i` and all `j ≠ k` (for `j = k` the inequality fails on cyclic
graphs, see the counterexample). -/
theorem computeP_spec (d : Mat) (n : ℕ) (hd : ∀ i j, i < n → j < n → 0 ≤ d i j) :
    ∀ j k, j < n → k < n →
      0 ≤ computeP d n j k ∧
      computeP d n j j = 0 ∧
      (j ≠ k → ∀ vs, (∀ v ∈ vs, v < n) → walkOk d j vs k = true →
        walkStrength d j vs k ≤ computeP d n j k) ∧
      (j ≠ k → computeP d n j k ≠ 0 →
        ∃ ws, (∀ v ∈ ws, v < n) ∧ ws.Nodup ∧ j ∉ ws ∧ k ∉ ws ∧
          walkOk d j ws k = true ∧ walkStrength d j ws k = computeP d n j k) ∧
      (∀ i, i < n → j ≠ k →
        min (computeP d n j i) (computeP d n i k) ≤ computeP d n j k) := by
  intro j k hj hk
  rw [computeP_eq_fwIter]
  refine ⟨fwIter_nonneg d n hd n j k, fwIter_diag d n n j, ?_, ?_, ?_⟩
  · intro hjk vs hvs hw
    exact fw_complete d n n le_rfl vs.length vs j k le_rfl hj hk hjk hvs hw
  · intro hjk hne
    obtain ⟨vs, h1, h2, h3⟩ := fw_attain d n hd n le_rfl j k hj hk hjk hne
    obtain ⟨ws, w1, w2, w3, w4, w5, w6⟩ := walk_to_path d vs.length vs j k le_rfl hjk h2
    have hwle : walkStrength d j ws k ≤ fwIter d n n j k :=
      fw_complete d n n le_rfl ws.length ws j k le_rfl hj hk hjk
        (fun v hv => h1 v (w4 v hv)) w5
    refine ⟨ws, fun v hv => h1 v (w4 v hv), w1, w2, w3, w5, ?_⟩
    omega
  · intro i hi hjk
    by_cases hij : i = j
    · rw [hij, fwIter_diag]
      exact min_le_right 0 _
    · by_cases hik : i = k
      · rw [hik, fwIter_diag]
        exact min_le_left _ 0
      · by_cases hpos : 0 < min (fwIter d n n j i) (fwIter d n n i k)
        · have hl1 := min_le_left (fwIter d n n j i) (fwIter d n n i k)
          have hl2 := min_le_right (fwIter d n n j i) (fwIter d n n i k)
          have hji0 : fwIter d n n j i ≠ 0 := by omega
          have hik0 : fwIter d n n i k ≠ 0 := by omega
          obtain ⟨vs₁, a1, a2, a3⟩ := fw_attain d n hd n le_rfl j i hj hi
            (fun h => hij h.symm) hji0
          obtain ⟨vs₂, b1, b2, b3⟩ := fw_attain d n hd n le_rfl i k hi hk hik hik0
          have hcomb : walkOk d j (vs₁ ++ i :: vs₂) k = true := by
            rw [walkOk_append, Bool.and_eq_true]
            exact ⟨a2, b2⟩
          have hstr : walkStrength d j (vs₁ ++ i :: vs₂) k =
              min (fwIter d n n j i) (fwIter d n n i k) := by
            rw [walkStrength_append, a3, b3]
          have hint : ∀ v ∈ vs₁ ++ i :: vs₂, v < n := by
            intro v hv
            rcases List.mem_append.1 hv with hv1 | hv1
            · exact a1 v hv1
            · rcases List.mem_cons.1 hv1 with rfl | hv2
              · exact hi
              · exact b1 v hv2
          have := fw_complete d n n le_rfl (vs₁ ++ i :: vs₂).length (vs₁ ++ i :: vs₂)
            j k le_rfl hj hk hjk hint hcomb
          rw [hstr] at this
          exact this
        · push_neg at hpos
          have := fwIter_nonneg d n hd n j k
          omega

/-- The three-option cyclic pairwise matrix used as C1 counterexample:
edges `0 → 1` of weight `3`, `1 → 2` of weight `2`, `2 → 0` of weight `4`. -/
def dCyc : Mat := fun i j =>
  if i = 0 ∧ j = 1 then 3
  else if i = 1 ∧ j = 2 then 2
  else if i = 2 ∧ j = 0 then 4 else 0

/-- C1 counterexample: the Schulze inequality quantified over all
`i, j, k` (as the claim states it) is false: on the cyclic matrix `dCyc`,
`P[0][1] = 3` and `P[1][0] = 2` (via the path `1 → 2 → 0`), but the
diagonal entry `P[0][0]` is `0 < min(P[0][1], P[1][0])` — the instance
`i = 1, j = 0, k = 0` refutes the unrestricted inequality. -/
theorem computeP_schulze_counterexample :
    ¬(∀ i j k, i < 3 → j < 3 → k < 3 →
        min (computeP dCyc 3 j i) (computeP dCyc 3 i k) ≤ computeP dCyc 3 j k) :=
  fun h => absurd (h 1 0 0 (by decide) (by decide) (by decide)) (by decide)

/-- The small pairwise matrix used as C1 witness: one edge `0 → 1`. -/
def dEx : Mat := fun i j => if i = 0 ∧ j = 1 then 1 else 0

/-- Witness for the amended C1 at `dEx`, `n = 2`, `j = 0`, `k = 1`. -/
theorem computeP_spec_witness :
    0 ≤ computeP dEx 2 0 1 ∧
      computeP dEx 2 0 0 = 0 ∧
      ((0 : ℕ) ≠ 1 → ∀ vs, (∀ v ∈ vs, v < 2) → walkOk dEx 0 vs 1 = true →
        walkStrength dEx 0 vs 1 ≤ computeP dEx 2 0 1) ∧
      ((0 : ℕ) ≠ 1 → computeP dEx 2 0 1 ≠ 0 →
        ∃ ws, (∀ v ∈ ws, v < 2) ∧ ws.Nodup ∧ 0 ∉ ws ∧ 1 ∉ ws ∧
          walkOk dEx 0 ws 1 = true ∧ walkStrength dEx 0 ws 1 = computeP dEx 2 0 1) ∧
      (∀ i, i < 2 → (0 : ℕ) ≠ 1 →
        min (computeP dEx 2 0 i) (computeP dEx 2 i 1) ≤ computeP dEx 2 0 1) :=
  computeP_spec dEx 2
    (by
      intro i j _ _
      dsimp only [dEx]
      split_ifs <;> decide)
    0 1 (by decide) (by decide)
